import Mathlib

/-!
Verification of the text-transformation pipeline of the Bread repository
(`summarize.py` and `answer.py`).

Strings are modelled as `List Char` (`Str`); Python's `str.split()`,
`str.strip()`, `str.endswith`, slicing and the regular-expression
substitutions used by the code are embedded as executable Lean functions
on `Str`.  The Inference Provider (the `transformers` pipeline) is a
black box and is modelled as an explicit function parameter; calls to it
are logged so that claims about the number and shape of invocations can
be stated.
-/

namespace Bread

/-- Python strings, modelled as lists of characters. -/
abbrev Str := List Char

/-- The whitespace characters recognised by Python's `str.split()` /
`str.strip()` and by the regex class `\s` (ASCII range): space, tab,
newline, carriage return, vertical tab, form feed. -/
def pyIsSpace (c : Char) : Bool :=
  c.toNat = 32 || c.toNat = 9 || c.toNat = 10 || c.toNat = 13 || c.toNat = 11 || c.toNat = 12

/-- Accumulator scanner for `str.split()`: `acc` is the word currently
being read (`none` while between words); words are emitted when a
whitespace character or the end of the string is reached. -/
def wordsAcc : Option Str → Str → List Str
  | none, [] => []
  | some w, [] => [w]
  | none, c :: t => if pyIsSpace c then wordsAcc none t else wordsAcc (some [c]) t
  | some w, c :: t => if pyIsSpace c then w :: wordsAcc none t else wordsAcc (some (w ++ [c])) t

/-- `s.split()`: split on runs of whitespace, discarding empty pieces. -/
def words (s : Str) : List Str := wordsAcc none s

/-- `len(s.split())`. -/
def wcount (s : Str) : Nat := (words s).length

/-- `' '.join(ws)`. -/
def joinSp : List Str → Str
  | [] => []
  | [w] => w
  | w :: ws => w ++ ' ' :: joinSp ws

/-- Remove trailing characters satisfying `p` (Python `str.rstrip`). -/
def dropTrailing (p : Char → Bool) (s : Str) : Str := (s.reverse.dropWhile p).reverse

/-- Python `str.strip()` (no argument): trim whitespace on both sides. -/
def pyStrip (s : Str) : Str := dropTrailing pyIsSpace (s.dropWhile pyIsSpace)

/-- Does the string end with the single character `c` (Python `s.endswith(c)`)? -/
def endsWithChar (c : Char) (s : Str) : Bool :=
  match s.getLast? with
  | some d => d = c
  | none => false

/-- Is the character a sentence terminator `.`, `!` or `?`. -/
def isTerm (c : Char) : Bool := c = '.' || c = '!' || c = '?'

/-- Python `s.endswith(('.', '!', '?'))`. -/
def endsTerm (s : Str) : Bool :=
  match s.getLast? with
  | some d => isTerm d
  | none => false

/-- Auxiliary scanner for `re.split(r'(?<=[.!?]) +', text)`: `prev` is the
character of the original string immediately before the current position
(an arbitrary non-terminator at the start), `acc` the sentence collected so
far.  A run of spaces whose first space is preceded by `.`, `!` or `?`
separates sentences and is discarded; the `skip` flag is set while the
remainder of such a run is being consumed. -/
def sentAux : Bool → Char → Str → Str → List Str
  | _, _, acc, [] => [acc]
  | true, _, acc, c :: rest =>
    if c = ' ' then sentAux true ' ' acc rest
    else sentAux false c (acc ++ [c]) rest
  | false, prev, acc, c :: rest =>
    if c = ' ' && isTerm prev then acc :: sentAux true ' ' [] rest
    else sentAux false c (acc ++ [c]) rest

/-- `re.split(r'(?<=[.!?]) +', text)` from `chunk_text`. -/
def sentSplit (text : Str) : List Str := sentAux false 'a' [] text

/-- The sentence-group accumulator of `chunk_text`, returning the groups of
consecutive sentences instead of the joined chunks (`chunk_text` joins each
group with single spaces).  `cur` is `current_chunk`, `len` is
`current_length`. -/
def chunkGroups (maxWords : Nat) : List Str → List Str → Nat → List (List Str)
  | [], cur, _ => if cur ≠ [] then [cur] else []
  | s :: rest, cur, len =>
    let wc := wcount s
    if len + wc > maxWords then
      cur :: chunkGroups maxWords rest [s] wc
    else
      chunkGroups maxWords rest (cur ++ [s]) (len + wc)

/-- `chunk_text(text, max_words)` from `summarize.py`. -/
def chunk_text (text : Str) (maxWords : Nat) : List Str :=
  (chunkGroups maxWords (sentSplit text) [] 0).map joinSp

/-- The character set of `rstrip('.,;:')` in `truncate_to_words`. -/
def isStripPunct (c : Char) : Bool := c = '.' || c = ',' || c = ';' || c = ':'

/-- The backward scan of `truncate_to_words`: the prefix of the word list up
to and including the last word ending in `.`, `!` or `?`, if any. -/
def cutAtLastTerm : List Str → Option (List Str)
  | [] => none
  | w :: ws =>
    match cutAtLastTerm ws with
    | some r => some (w :: r)
    | none => if endsTerm w then some [w] else none

/-- `truncate_to_words(text, max_words)` from `summarize.py`.  `words text`
is `words`, `(words text).take maxWords` is `truncated`; the backward scan
for a sentence-boundary word is `cutAtLastTerm`. -/
def truncate_to_words (text : Str) (maxWords : Nat) : Str :=
  if (words text).length ≤ maxWords then text
  else
    match cutAtLastTerm ((words text).take maxWords) with
    | some r => joinSp r
    | none => dropTrailing isStripPunct (joinSp ((words text).take maxWords)) ++ ['.']

/-- `scale_summary_length(word_count)` from `summarize.py`. -/
def scale_summary_length (wordCount : Nat) : Nat × Nat :=
  if wordCount < 50 then (20, 30)
  else if wordCount < 150 then (30, 50)
  else if wordCount < 500 then (50, 100)
  else (80, 160)

/-! ### answer.py: the Answer Formatter and the Answer Controller -/

/-- Python `str.lower()`, per character (restricted to ASCII letters, the
only case-carrying characters appearing in this code). -/
def pyToLower (c : Char) : Char :=
  if 65 ≤ c.toNat ∧ c.toNat ≤ 90 then Char.ofNat (c.toNat + 32) else c

/-- Python `str.upper()`, per character (ASCII letters). -/
def pyToUpper (c : Char) : Char :=
  if 97 ≤ c.toNat ∧ c.toNat ≤ 122 then Char.ofNat (c.toNat - 32) else c

/-- Python `s.lower()`. -/
def lowerStr (s : Str) : Str := s.map pyToLower

/-- `s[0].lower() + s[1:]`. -/
def lowerFirst : Str → Str
  | [] => []
  | c :: t => pyToLower c :: t

/-- `s[0].upper() + s[1:]`. -/
def capFirst : Str → Str
  | [] => []
  | c :: t => pyToUpper c :: t

/-- Python `s.startswith((p1, p2, ...))`. -/
def startsWithOne (ps : List Str) (s : Str) : Bool := ps.any (fun p => p.isPrefixOf s)

/-- Python `needle in hay` (substring containment). -/
def hasInfix (hay needle : Str) : Bool :=
  match hay with
  | [] => needle.isEmpty
  | c :: t => needle.isPrefixOf (c :: t) || hasInfix t needle

/-- Python `s.endswith(suf)` for a string suffix. -/
def endsWithStr (suf s : Str) : Bool := suf.isSuffixOf s

/-- Try to remove `old` from the front of `s`, returning the remainder. -/
def chopped : Str → Str → Option Str
  | [], s => some s
  | _ :: _, [] => none
  | o :: os, c :: t => if o = c then chopped os t else none

/-- Fuel-driven scanner for Python `s.replace(old, new)` (all non-overlapping
occurrences, left to right).  The fuel is at least `s.length + 1`, which
suffices whenever `old` is non-empty, as in every use in `answer.py`. -/
def replaceAllAux (old rep : Str) : Nat → Str → Str
  | 0, s => s
  | _ + 1, [] => []
  | fuel + 1, c :: t =>
    match chopped old (c :: t) with
    | some r => rep ++ replaceAllAux old rep fuel r
    | none => c :: replaceAllAux old rep fuel t

/-- Python `s.replace(old, new)`. -/
def replaceAll (old rep s : Str) : Str := replaceAllAux old rep (s.length + 1) s

/-- The normalisation of the raw answer in `_build_fluent_answer`
(lines 54-61): strip, capitalise the first letter, and append `.` unless
the result already ends in `.`, `!` or `?`.  Returns `[]` on a blank
answer (that case is handled separately by the formatter). -/
def normAns (raw : Str) : Str :=
  match pyStrip raw with
  | [] => []
  | c :: t => if endsTerm (pyToUpper c :: t) then pyToUpper c :: t else (pyToUpper c :: t) ++ ['.']

/-- The list `preambles` of `_build_fluent_answer`. -/
def preambles : List Str :=
  ["She was".data, "The answer is".data, "It is".data, "This is".data,
   "According to the context, it is".data, "From the information, it appears to be".data]

/-- A deterministic stand-in for `random.choice`: select the element at
index `k` modulo the list length.  Every possible random outcome is
realised by some `k`. -/
def pick (l : List Str) (k : Nat) : Str := l.getD (k % l.length) []

/-- The question words tested by `q.startswith((...))` in
`_build_fluent_answer`. -/
def whWords : List Str :=
  ["who".data, "where".data, "when".data, "what".data, "which".data,
   "whom".data, "whose".data]

/-- The preamble selection of `_build_fluent_answer` (lines 81-88): a
WH-question draws from the first three preambles and drops `" was"` when
the answer starts with an article; any other question draws from the full
list.  `q` is the lowercased question, `ans` the normalised answer,
`choice` the modelled random draw. -/
def choosePre (q ans : Str) (choice : Nat) : Str :=
  if startsWithOne whWords q then
    let p := pick (preambles.take 3) choice
    if endsWithStr "was".data p &&
        startsWithOne ["a ".data, "an ".data, "the ".data] (lowerStr ans) then
      replaceAll " was".data [] p
    else p
  else pick preambles choice

/-- The final composition of `_build_fluent_answer` (lines 90-98): return
the answer unmodified when it already starts with the preamble's core text
(the preamble lowered, with `"she was"` deleted and stripped), otherwise
concatenate and re-capitalise. -/
def composeAns (pre ans : Str) : Str :=
  if (pyStrip (replaceAll "she was".data [] (lowerStr pre))).isPrefixOf (lowerStr ans) then ans
  else capFirst (pre ++ ' ' :: lowerFirst ans)

/-- `_build_fluent_answer(question, raw_answer, context)` from `answer.py`,
with the random preamble draw made explicit as `choice`. -/
def build_fluent_answer (question raw _ctx : Str) (choice : Nat) : Str :=
  if pyStrip raw = [] then "Sorry, I couldn't find an answer.".data
  else if hasInfix (lowerStr question) "born".data ||
      hasInfix (lowerStr question) "birth".data then
    if !startsWithOne ["in ".data, "on ".data, "at ".data] (lowerStr (normAns raw)) then
      if endsWithChar '.' (normAns raw) then
        "She was born in ".data ++ lowerFirst (normAns raw)
      else "She was born in ".data ++ lowerFirst (normAns raw) ++ ['.']
    else
      if endsWithChar '.' (normAns raw) then
        "She was born ".data ++ lowerFirst (normAns raw)
      else "She was born ".data ++ lowerFirst (normAns raw) ++ ['.']
  else composeAns (choosePre (lowerStr question) (normAns raw) choice) (normAns raw)

/-- The `Answer` dataclass of `answer.py`.  Confidence scores are modelled
as rationals. -/
structure Answer where
  answer : Str
  confidence : ℚ
deriving DecidableEq

/-- Round-half-to-even to an integer, the tie rule of Python `round`. -/
def roundHalfEven (x : ℚ) : ℤ :=
  if x - ⌊x⌋ < 1 / 2 then ⌊x⌋
  else if x - ⌊x⌋ > 1 / 2 then ⌊x⌋ + 1
  else if ⌊x⌋ % 2 = 0 then ⌊x⌋ else ⌊x⌋ + 1

/-- Python `round(x, 4)` on the (rational-modelled) confidence score. -/
def pyRound4 (x : ℚ) : ℚ := (roundHalfEven (x * 10000) : ℚ) / 10000

/-- `answer_question(question, context)` from `answer.py`.  The QA
Inference Provider call is modelled by `provider`: `.ok (span, score)` for
a successful call and `.error ()` for a raised exception; the `try` block
converts any provider failure into the neutral fallback answer. -/
def answer_question (q ctx : Str) (provider : Except Unit (Str × ℚ)) (choice : Nat) :
    Except Str Answer :=
  if pyStrip q = [] ∨ pyStrip ctx = [] then
    .error "Question and context cannot be empty.".data
  else
    match provider with
    | .ok (raw, score) => .ok ⟨build_fluent_answer q raw ctx choice, pyRound4 score⟩
    | .error _ => .ok ⟨"Unable to determine answer.".data, 0⟩

/-! ### summarize_text: the Summarization Controller -/

/-- `min_len` derived in `summarize_text` line 49. -/
def minLenOf (text : Str) : Nat := (scale_summary_length (wcount text)).1

/-- `max_len` derived in `summarize_text` line 49. -/
def maxLenOf (text : Str) : Nat := (scale_summary_length (wcount text)).2

/-- `first_pass_min = max(15, min_len // 3)` (line 66). -/
def firstPassMin (text : Str) : Nat := max 15 (minLenOf text / 3)

/-- `first_pass_max = max(30, max_len // 3)` (line 67). -/
def firstPassMax (text : Str) : Nat := max 30 (maxLenOf text / 3)

/-- The degenerate-output test of `summarize_text` (lines 60 and 83):
`len(summary.split()) < (min_len // 2) or not summary.strip().endswith('.')`.
Note that only `'.'` is tested, not `'!'` or `'?'`. -/
def degenerate (minLen : Nat) (s : Str) : Bool :=
  decide (wcount s < minLen / 2) || !endsWithChar '.' (pyStrip s)

/-- One final-stage summarization with the bounded retry of lines 57-62
(and identically lines 78-88): call the provider, and call it once more
with `max_length + 30` (min unchanged) when the first result is
degenerate.  Returns the last summary together with the ordered log of
`(input, max_length, min_length)` provider calls. -/
def runFinal (p : Str → Nat → Nat → Str) (input : Str) (mn mx : Nat) :
    Str × List (Str × Nat × Nat) :=
  if degenerate mn (p input mx mn) then
    (p input (mx + 30) mn, [(input, mx, mn), (input, mx + 30, mn)])
  else (p input mx mn, [(input, mx, mn)])

/-- `combined_summary = " ".join(chunk_summaries)` of the long-input path
(lines 69-77). -/
def combinedSummary (p : Str → Nat → Nat → Str) (text : Str) : Str :=
  joinSp ((chunk_text text 600).map (fun c => p c (firstPassMax text) (firstPassMin text)))

/-- `summarize_text(text)` from `summarize.py`.  The Inference Provider is
modelled by `p input max_length min_length`; the result is the returned
summary paired with the ordered log of all provider calls. -/
def summarize_text (p : Str → Nat → Nat → Str) (text : Str) :
    Str × List (Str × Nat × Nat) :=
  if wcount text ≤ 500 then
    runFinal p text (minLenOf text) (maxLenOf text)
  else
    ((runFinal p (combinedSummary p text) (minLenOf text) (maxLenOf text)).1,
     (chunk_text text 600).map (fun c => (c, firstPassMax text, firstPassMin text)) ++
       (runFinal p (combinedSummary p text) (minLenOf text) (maxLenOf text)).2)

/-! ### improve_summary: the Summary Refiner

Each `re.sub` of `improve_summary` is embedded as a left-to-right scanner
with the exact semantics of the regex on all inputs (leftmost match,
greedy/lazy quantifiers as written, `re.I` where the code passes it).
The scanners carry a fuel argument so they are structurally recursive and
kernel-evaluable; the wrappers pass `length + 1` fuel, which is always
sufficient since every step consumes at least one input character. -/

/-- The regex class `\w` (ASCII): letters, digits, underscore. -/
def isWordChar (c : Char) : Bool :=
  (48 ≤ c.toNat && c.toNat ≤ 57) || (65 ≤ c.toNat && c.toNat ≤ 90) ||
    (97 ≤ c.toNat && c.toNat ≤ 122) || c.toNat = 95

/-- Word boundary `\b` immediately before the string `s` (looking right):
holds when `s` is exhausted or starts with a non-word character.  Used for
the `\b` that follows a captured word. -/
def boundaryB (s : Str) : Bool :=
  match s with
  | [] => true
  | d :: _ => !isWordChar d

/-- Case-insensitive `chopped`: remove `old` from the front of `s` up to
ASCII case, returning the remainder. -/
def choppedCI : Str → Str → Option Str
  | [], s => some s
  | _ :: _, [] => none
  | o :: os, c :: t => if pyToLower c = pyToLower o then choppedCI os t else none

/-- The literal phrase of refiner rule 1. -/
def phraseFiller : Str := "this is a good example of".data

/-- The lazy tail `.*?\. ` of rule 1: scan for the first `". "` (dot then
space); `.` does not match a newline, so a `'\n'` encountered first kills
the match.  Returns the remainder after the `". "`. -/
def findDotSpace : Str → Option Str
  | [] => none
  | c :: t =>
    if c = '\n' then none
    else if c = '.' && t.head? = some ' ' then some t.tail
    else findDotSpace t

/-- A rule-1 match starting at the current position: the case-insensitive
literal phrase with a word boundary on each side, followed lazily by
`". "`.  Returns the remainder after the match. -/
def rule1Match (s : Str) : Option Str :=
  (choppedCI phraseFiller s).bind
    (fun rest => if boundaryB rest then findDotSpace rest else none)

/-- Rule 1 scanner: `re.sub(r'(\bthis is a good example of\b.*?\. )', '',
s, flags=re.I)`.  `prevW` tracks whether the previous original character
is a word character (for the leading `\b`). -/
def rule1Aux : Nat → Bool → Str → Str
  | 0, _, s => s
  | _ + 1, _, [] => []
  | fuel + 1, prevW, c :: t =>
    if !prevW then
      (rule1Match (c :: t)).elim (c :: rule1Aux fuel (isWordChar c) t)
        (fun r2 => rule1Aux fuel false r2)
    else c :: rule1Aux fuel (isWordChar c) t

/-- `re.sub(r'(\bthis is a good example of\b.*?\. )', '', s, flags=re.I)`
(refiner step 1). -/
def pyRule1 (s : Str) : Str := rule1Aux (s.length + 1) false s

/-- The greedy `( \1\b)+` of rule 2: consume as many `" w"` repetitions
(each followed by a word boundary) as possible; `some rest` when at least
one was consumed. -/
def eatReps (w : Str) : Nat → Str → Option Str
  | 0, _ => none
  | _ + 1, [] => none
  | fuel + 1, c :: r =>
    if c = ' ' then
      (chopped w r).bind (fun r2 =>
        if boundaryB r2 then some ((eatReps w fuel r2).getD r2) else none)
    else none

/-- Rule 2 scanner: `re.sub(r'\b(\w+)( \1\b)+', r'\1', s)` (case
sensitive).  A match can only start at a word start; the captured group is
the maximal word there, since a shorter capture is followed by a word
character where the pattern requires a space; when repetitions are eaten
the scan continues after them, otherwise right after the word. -/
def rule2Aux : Nat → Bool → Str → Str
  | 0, _, s => s
  | _ + 1, _, [] => []
  | fuel + 1, prevW, c :: t =>
    if isWordChar c && !prevW then
      (c :: t.takeWhile isWordChar) ++
        rule2Aux fuel true
          ((eatReps (c :: t.takeWhile isWordChar) (fuel + 1) (t.dropWhile isWordChar)).getD
            (t.dropWhile isWordChar))
    else c :: rule2Aux fuel (isWordChar c) t

/-- `re.sub(r'\b(\w+)( \1\b)+', r'\1', s)` (refiner step 2). -/
def pyRule2 (s : Str) : Str := rule2Aux (s.length + 1) false s

/-- The shape `" and X..."`: a space, the literal `and` up to case, and a
second space; returns the remainder after the second space. -/
def andSplit : Str → Option Str
  | c0 :: a :: n :: d :: c4 :: r =>
    if c0 = ' ' && pyToLower a = 'a' && pyToLower n = 'n' && pyToLower d = 'd' && c4 = ' '
    then some r else none
  | _ => none

/-- The greedy `( and \1\b)+` of rule 3, case-insensitively (`re.I`
applies both to the literal `" and "` and to the backreference). -/
def eatRepsAnd (w : Str) : Nat → Str → Option Str
  | 0, _ => none
  | fuel + 1, s =>
    (andSplit s).bind (fun r =>
      (choppedCI w r).bind (fun r2 =>
        if boundaryB r2 then some ((eatRepsAnd w fuel r2).getD r2) else none))

/-- Rule 3 scanner: `re.sub(r'(\b\w+\b)( and \1\b)+', r'\1', s,
flags=re.I)`.  The captured group is a maximal word (it carries `\b` on
both sides); the replacement keeps its original casing. -/
def rule3Aux : Nat → Bool → Str → Str
  | 0, _, s => s
  | _ + 1, _, [] => []
  | fuel + 1, prevW, c :: t =>
    if isWordChar c && !prevW then
      (c :: t.takeWhile isWordChar) ++
        rule3Aux fuel true
          ((eatRepsAnd (c :: t.takeWhile isWordChar) (fuel + 1) (t.dropWhile isWordChar)).getD
            (t.dropWhile isWordChar))
    else c :: rule3Aux fuel (isWordChar c) t

/-- `re.sub(r'(\b\w+\b)( and \1\b)+', r'\1', s, flags=re.I)` (refiner
step 3). -/
def pyRule3 (s : Str) : Str := rule3Aux (s.length + 1) false s

/-- Rule 4 scanner: `re.sub(r'\s+([.,])', r'\1', s)` — a maximal
whitespace run followed by `.` or `,` is replaced by that punctuation
character alone (the run is `c` plus the whitespace prefix of `t`). -/
def rule4Aux : Nat → Str → Str
  | 0, s => s
  | _ + 1, [] => []
  | fuel + 1, c :: t =>
    if pyIsSpace c then
      if (t.dropWhile pyIsSpace).head? = some '.' || (t.dropWhile pyIsSpace).head? = some ',' then
        (t.dropWhile pyIsSpace).take 1 ++ rule4Aux fuel (t.dropWhile pyIsSpace).tail
      else (c :: t.takeWhile pyIsSpace) ++ rule4Aux fuel (t.dropWhile pyIsSpace)
    else c :: rule4Aux fuel t

/-- `re.sub(r'\s+([.,])', r'\1', s)` (refiner step 4). -/
def pyRule4 (s : Str) : Str := rule4Aux (s.length + 1) s

/-- The tail of a rule-5 match after the leading `'.'`: a space, then
`The` or `the`.  Returns the `T`/`t` character and the remainder. -/
def theAfterDot : Str → Option (Char × Str)
  | d1 :: d2 :: d3 :: d4 :: t2 =>
    if d1 = ' ' && (d2 = 'T' || d2 = 't') && d3 = 'h' && d4 = 'e' then some (d2, t2) else none
  | _ => none

/-- Rule 5 scanner: `re.sub(r'\. ([Tt]he)', r'; \1', s)`. -/
def rule5Aux : Nat → Str → Str
  | 0, s => s
  | _ + 1, [] => []
  | fuel + 1, c :: t =>
    if c = '.' then
      (theAfterDot t).elim ('.' :: rule5Aux fuel t)
        (fun p => ';' :: ' ' :: p.1 :: 'h' :: 'e' :: rule5Aux fuel p.2)
    else c :: rule5Aux fuel t

/-- `re.sub(r'\. ([Tt]he)', r'; \1', s)` (refiner step 5). -/
def pyRule5 (s : Str) : Str := rule5Aux (s.length + 1) s

/-- Rule 6 scanner: `re.sub(r'\s{2,}', ' ', s)` — whitespace runs of
length at least two collapse to a single space; a lone whitespace
character (even a newline) is left as is. -/
def rule6Aux : Nat → Str → Str
  | 0, s => s
  | _ + 1, [] => []
  | fuel + 1, c :: t =>
    if pyIsSpace c then
      if t.head?.any pyIsSpace then ' ' :: rule6Aux fuel (t.dropWhile pyIsSpace)
      else c :: rule6Aux fuel t
    else c :: rule6Aux fuel t

/-- `re.sub(r'\s{2,}', ' ', s)` (refiner step 6). -/
def pyRule6 (s : Str) : Str := rule6Aux (s.length + 1) s

/-- The six regex substitutions of `improve_summary` (lines 92-97), in
order. -/
def refineRules (s : Str) : Str :=
  pyRule6 (pyRule5 (pyRule4 (pyRule3 (pyRule2 (pyRule1 s)))))

/-- Lines 99-102 of `improve_summary`: capitalise the first character and
append a period when non-empty and not already ending in `'.'`. -/
def ensureDot (s : Str) : Str :=
  if s ≠ [] && !endsWithChar '.' s then s ++ ['.'] else s

/-- `improve_summary(summary, max_words)` from `summarize.py`. -/
def improve_summary (summary : Str) (maxWords : Nat) : Str :=
  pyStrip (truncate_to_words (ensureDot (capFirst (pyStrip (refineRules summary))))
    (max 20 (min 100 maxWords)))

/-! ### The sentence class used for the refiner idempotence claim -/

/-- ASCII letter. -/
def isAsciiAlpha (c : Char) : Bool :=
  (65 ≤ c.toNat && c.toNat ≤ 90) || (97 ≤ c.toNat && c.toNat ≤ 122)

/-- A non-empty word of ASCII letters. -/
def alphaWord (w : Str) : Prop := w ≠ [] ∧ ∀ c ∈ w, isAsciiAlpha c = true

/-- A sentence made of words separated by single spaces, ending in a
single terminal period attached to the last word. -/
def DotStr (ws : List Str) : Str := joinSp ws ++ ['.']

/-- Capitalise the first word of a word list (the effect of
`summary[0].upper() + summary[1:]` on such a sentence). -/
def capFirstWord : List Str → List Str
  | [] => []
  | w :: rest => capFirst w :: rest

/-- No `'.'` immediately followed by `' '` anywhere in the string. -/
def NoDotSpace (s : Str) : Prop := List.Chain' (fun a b => ¬(a = '.' ∧ b = ' ')) s

/-- Every whitespace character is followed by a non-whitespace character
other than `'.'` and `','` (or ends the string). -/
def NoWsPunct (s : Str) : Prop :=
  List.Chain' (fun a b => pyIsSpace a = true → pyIsSpace b = false ∧ b ≠ '.' ∧ b ≠ ',') s

/-- No two consecutive whitespace characters. -/
def NoDoubleWs (s : Str) : Prop :=
  List.Chain' (fun a b => ¬(pyIsSpace a = true ∧ pyIsSpace b = true)) s

/-- The adjacency discipline of a `DotStr` over letter words: a letter is
followed by a letter, a space or the final period; a space is followed by
a letter. -/
def dotAdj (a b : Char) : Prop :=
  (isAsciiAlpha a = true ∧ (isAsciiAlpha b = true ∨ b = ' ' ∨ b = '.')) ∨
    (a = ' ' ∧ isAsciiAlpha b = true)

/-- The sentence class of the amended idempotence claim: a non-empty list
of non-empty ASCII-letter words, no two of which agree even ignoring
case. -/
def SentClass (ws : List Str) : Prop :=
  ws ≠ [] ∧ (∀ w ∈ ws, alphaWord w) ∧
    List.Pairwise (fun a b => lowerStr a ≠ lowerStr b) ws

instance (w : Str) : Decidable (alphaWord w) :=
  inferInstanceAs (Decidable (w ≠ [] ∧ ∀ c ∈ w, isAsciiAlpha c = true))

instance (ws : List Str) : Decidable (SentClass ws) :=
  inferInstanceAs (Decidable (ws ≠ [] ∧ (∀ w ∈ ws, alphaWord w) ∧
    List.Pairwise (fun a b => lowerStr a ≠ lowerStr b) ws))

/-! ### Lemmas about the word splitter -/

/-- A word as produced by `str.split()`: non-empty and whitespace-free. -/
def goodWord (w : Str) : Prop := w ≠ [] ∧ ∀ c ∈ w, pyIsSpace c = false

theorem wordsAcc_append_space (a b : Str) :
    ∀ acc, wordsAcc acc (a ++ ' ' :: b) = wordsAcc acc a ++ wordsAcc none b := by
  induction a with
  | nil =>
    intro acc
    cases acc <;> simp [wordsAcc, pyIsSpace]
  | cons c t ih =>
    intro acc
    cases acc <;> by_cases h : pyIsSpace c <;> simp [wordsAcc, h, ih]

theorem words_append_space (a b : Str) : words (a ++ ' ' :: b) = words a ++ words b :=
  wordsAcc_append_space a b none

theorem wordsAcc_some_nonspace (w : Str) (hw : ∀ c ∈ w, pyIsSpace c = false) :
    ∀ v, wordsAcc (some v) w = [v ++ w] := by
  induction w with
  | nil => intro v; simp [wordsAcc]
  | cons c t ih =>
    intro v
    have hc : pyIsSpace c = false := hw c (by simp)
    have ht : ∀ d ∈ t, pyIsSpace d = false := fun d hd => hw d (by simp [hd])
    simp [wordsAcc, hc, ih ht]

theorem words_single (w : Str) (hw : goodWord w) : words w = [w] := by
  obtain ⟨hne, hns⟩ := hw
  cases w with
  | nil => exact absurd rfl hne
  | cons c t =>
    have hc : pyIsSpace c = false := hns c (by simp)
    have ht : ∀ d ∈ t, pyIsSpace d = false := fun d hd => hns d (by simp [hd])
    simp [words, wordsAcc, hc, wordsAcc_some_nonspace t ht]

theorem words_joinSp (ws : List Str) (h : ∀ w ∈ ws, goodWord w) :
    words (joinSp ws) = ws := by
  induction ws with
  | nil => rfl
  | cons w rest ih =>
    cases rest with
    | nil => exact words_single w (h w (by simp))
    | cons x t =>
      have : joinSp (w :: x :: t) = w ++ ' ' :: joinSp (x :: t) := rfl
      rw [this, words_append_space, words_single w (h w (by simp)),
        ih (fun u hu => h u (by simp [hu]))]
      rfl

theorem wcount_append_space (a b : Str) : wcount (a ++ ' ' :: b) = wcount a + wcount b := by
  simp [wcount, words_append_space]

/-- Total word count of a sentence group. -/
def sumW (g : List Str) : Nat := (g.map wcount).sum

theorem wcount_joinSp (g : List Str) : wcount (joinSp g) = sumW g := by
  induction g with
  | nil => rfl
  | cons w rest ih =>
    cases rest with
    | nil => simp [joinSp, sumW]
    | cons x t =>
      have : joinSp (w :: x :: t) = w ++ ' ' :: joinSp (x :: t) := rfl
      rw [this, wcount_append_space, ih]
      simp [sumW]

theorem wordsAcc_good (s : Str) :
    ∀ acc, (∀ v, acc = some v → goodWord v) → ∀ w ∈ wordsAcc acc s, goodWord w := by
  induction s with
  | nil =>
    intro acc hacc w hw
    cases acc with
    | none => simp [wordsAcc] at hw
    | some v => simp [wordsAcc] at hw; exact hw ▸ hacc v rfl
  | cons c t ih =>
    intro acc hacc w hw
    cases acc with
    | none =>
      by_cases h : pyIsSpace c
      · exact ih none (by simp) w (by simpa [wordsAcc, h] using hw)
      · refine ih (some [c]) ?_ w (by simpa [wordsAcc, h] using hw)
        intro v hv
        cases hv
        exact ⟨by simp, by simp [Bool.not_eq_true] at h; simp [h]⟩
    | some v =>
      by_cases h : pyIsSpace c
      · rw [wordsAcc, if_pos h] at hw
        rcases List.mem_cons.mp hw with h1 | h2
        · exact h1 ▸ hacc v rfl
        · exact ih none (by simp) w h2
      · refine ih (some (v ++ [c])) ?_ w (by simpa [wordsAcc, h] using hw)
        intro u hu
        cases hu
        obtain ⟨_, hns⟩ := hacc v rfl
        refine ⟨by simp, ?_⟩
        intro d hd
        rcases List.mem_append.mp hd with h1 | h2
        · exact hns d h1
        · simp only [List.mem_singleton] at h2
          rw [h2, Bool.eq_false_iff]
          exact h

theorem words_good (s : Str) : ∀ w ∈ words s, goodWord w :=
  wordsAcc_good s none (by simp)

theorem wordsAcc_some_head (s : Str) :
    ∀ v, ∃ r rest, wordsAcc (some v) s = (v ++ r) :: rest := by
  induction s with
  | nil => intro v; exact ⟨[], [], by simp [wordsAcc]⟩
  | cons c t ih =>
    intro v
    by_cases h : pyIsSpace c
    · exact ⟨[], wordsAcc none t, by simp [wordsAcc, h]⟩
    · obtain ⟨r, rest, hr⟩ := ih (v ++ [c])
      exact ⟨[c] ++ r, rest, by simp [wordsAcc, h, hr]⟩

theorem words_head (c : Char) (u : Str) (h : pyIsSpace c = false) :
    ∃ r rest, words (c :: u) = (c :: r) :: rest := by
  obtain ⟨r, rest, hr⟩ := wordsAcc_some_head u [c]
  exact ⟨r, rest, by simp [words, wordsAcc, h, hr]⟩

/-! ### Lemmas about the chunker -/

theorem chunkGroups_join (m : Nat) :
    ∀ ss cur len, (chunkGroups m ss cur len).flatten = cur ++ ss := by
  intro ss
  induction ss with
  | nil =>
    intro cur len
    by_cases h : cur = [] <;> simp [chunkGroups, h]
  | cons s rest ih =>
    intro cur len
    by_cases h : len + wcount s > m
    · simp only [chunkGroups, if_pos h, List.flatten_cons, ih]
      rfl
    · simp only [chunkGroups, if_neg h, ih]
      simp

theorem chunkGroups_oversize (m : Nat) :
    ∀ ss cur len, len = sumW cur → (sumW cur ≤ m ∨ cur.length = 1) →
      ∀ g ∈ chunkGroups m ss cur len, m < sumW g → g.length = 1 := by
  intro ss
  induction ss with
  | nil =>
    intro cur len _ hinv g hg hlt
    by_cases h : cur = [] <;> simp [chunkGroups, h] at hg
    subst hg
    rcases hinv with h1 | h1
    · omega
    · exact h1
  | cons s rest ih =>
    intro cur len hlen hinv g hg hlt
    by_cases h : len + wcount s > m
    · rw [chunkGroups, if_pos h] at hg
      rcases List.mem_cons.mp hg with h1 | h2
      · subst h1
        rcases hinv with h1 | h1
        · omega
        · exact h1
      · exact ih [s] (wcount s) (by simp [sumW]) (Or.inr rfl) g h2 hlt
    · rw [chunkGroups, if_neg h] at hg
      refine ih (cur ++ [s]) (len + wcount s) ?_ ?_ g hg hlt
      · simp [sumW, hlen]
      · left
        have : sumW (cur ++ [s]) = sumW cur + wcount s := by simp [sumW]
        omega

/-! ### Lemmas about joinSp, dropTrailing and cutAtLastTerm -/

theorem joinSp_concat (xs : List Str) (w : Str) (h : xs ≠ []) :
    joinSp (xs ++ [w]) = joinSp xs ++ ' ' :: w := by
  induction xs with
  | nil => exact absurd rfl h
  | cons a t ih =>
    cases t with
    | nil => rfl
    | cons b u =>
      have h2 : joinSp (a :: (b :: u) ++ [w]) = a ++ ' ' :: joinSp ((b :: u) ++ [w]) := rfl
      rw [h2, ih (by simp), show joinSp (a :: b :: u) = a ++ ' ' :: joinSp (b :: u) from rfl]
      simp

theorem dropTrailing_append (p : Char → Bool) (a b : Str) :
    dropTrailing p (a ++ b) =
      if dropTrailing p b = [] then dropTrailing p a else a ++ dropTrailing p b := by
  by_cases h : b.reverse.dropWhile p = []
  · simp [dropTrailing, List.reverse_append, List.dropWhile_append, h]
  · simp [dropTrailing, List.reverse_append, List.dropWhile_append, h]

theorem dropTrailing_subset (p : Char → Bool) (s : Str) :
    ∀ c ∈ dropTrailing p s, c ∈ s := by
  intro c hc
  unfold dropTrailing at hc
  rw [List.mem_reverse] at hc
  have := (List.dropWhile_sublist (l := s.reverse) (p := p)).subset hc
  simpa using this

theorem dropTrailing_eq_self_append (p : Char → Bool) (s : Str) :
    ∃ t, s = dropTrailing p s ++ t := by
  refine ⟨(s.reverse.takeWhile p).reverse, ?_⟩
  unfold dropTrailing
  have := List.takeWhile_append_dropWhile (p := p) (l := s.reverse)
  calc s = s.reverse.reverse := by simp
  _ = (s.reverse.takeWhile p ++ s.reverse.dropWhile p).reverse := by rw [this]
  _ = (s.reverse.dropWhile p).reverse ++ (s.reverse.takeWhile p).reverse := by
        rw [List.reverse_append]

theorem cutAtLastTerm_some (l : List Str) :
    ∀ r, cutAtLastTerm l = some r →
      (∃ t, l = r ++ t) ∧ ∃ w, r.getLast? = some w ∧ endsTerm w = true := by
  induction l with
  | nil => intro r hr; simp [cutAtLastTerm] at hr
  | cons w ws ih =>
    intro r hr
    rw [cutAtLastTerm] at hr
    cases hc : cutAtLastTerm ws with
    | some r0 =>
      rw [hc] at hr
      cases hr
      obtain ⟨⟨t, ht⟩, w0, hw0, hterm⟩ := ih r0 hc
      refine ⟨⟨t, by rw [List.cons_append, ← ht]⟩, w0, ?_, hterm⟩
      rw [List.getLast?_cons, hw0]
      rfl
    | none =>
      rw [hc] at hr
      by_cases he : endsTerm w
      · rw [if_pos he] at hr
        cases hr
        exact ⟨⟨ws, rfl⟩, w, rfl, he⟩
      · rw [if_neg he] at hr
        cases hr

/-! ### Properties of truncate_to_words -/

theorem endsTerm_concat_dot (s : Str) : endsTerm (s ++ ['.']) = true := by
  simp [endsTerm, List.getLast?_concat, isTerm]

theorem endsTerm_joinSp (r : List Str) (w : Str) (hlast : r.getLast? = some w)
    (hw : w ≠ []) (ht : endsTerm w = true) : endsTerm (joinSp r) = true := by
  have hr : r.dropLast ++ [w] = r := List.dropLast_append_getLast? w hlast
  by_cases h0 : r.dropLast = []
  · rw [← hr, h0]
    simpa using ht
  · rw [← hr, joinSp_concat _ _ h0]
    obtain ⟨c, u, hcu⟩ := List.exists_cons_of_ne_nil hw
    subst hcu
    rw [endsTerm] at ht ⊢
    rw [List.getLast?_append_cons]
    exact ht

theorem truncate_unchanged (text : Str) (m : Nat) (h : wcount text ≤ m) :
    truncate_to_words text m = text := by
  unfold truncate_to_words
  exact if_pos h

theorem truncate_endsTerm (text : Str) (m : Nat) (h : m < wcount text) :
    endsTerm (truncate_to_words text m) = true := by
  unfold truncate_to_words
  rw [if_neg (show ¬(words text).length ≤ m from Nat.not_le_of_lt h)]
  cases hc : cutAtLastTerm ((words text).take m) with
  | some r =>
    show endsTerm (joinSp r) = true
    obtain ⟨⟨t, ht⟩, w, hw, hterm⟩ := cutAtLastTerm_some _ r hc
    have hwmem : w ∈ words text := by
      have h1 : w ∈ r := List.mem_of_mem_getLast? (by simp [hw])
      exact List.mem_of_mem_take (ht ▸ List.mem_append_left t h1)
    exact endsTerm_joinSp r w hw (words_good text w hwmem).1 hterm
  | none =>
    exact endsTerm_concat_dot _

theorem words_concat_dot_good (s : Str) (_hs : s ≠ []) (hns : ∀ c ∈ s, pyIsSpace c = false) :
    words (s ++ ['.']) = [s ++ ['.']] := by
  refine words_single _ ⟨by simp, ?_⟩
  intro c hc
  rcases List.mem_append.mp hc with h1 | h2
  · exact hns c h1
  · simp at h2
    subst h2
    rfl

theorem truncate_wcount (text : Str) (m : Nat) (h : m < wcount text) (hm : 1 ≤ m) :
    wcount (truncate_to_words text m) ≤ m := by
  unfold truncate_to_words
  rw [if_neg (show ¬(words text).length ≤ m from Nat.not_le_of_lt h)]
  have htrlen : ((words text).take m).length = m := by
    rw [List.length_take]
    exact Nat.min_eq_left (Nat.le_of_lt h)
  have htrgood : ∀ w ∈ (words text).take m, goodWord w :=
    fun w hw => words_good text w (List.mem_of_mem_take hw)
  cases hc : cutAtLastTerm ((words text).take m) with
  | some r =>
    show wcount (joinSp r) ≤ m
    obtain ⟨⟨t, ht⟩, _⟩ := cutAtLastTerm_some _ r hc
    have hrgood : ∀ w ∈ r, goodWord w := fun w hw => htrgood w (ht ▸ List.mem_append_left t hw)
    rw [wcount, words_joinSp r hrgood]
    have : r.length + t.length = m := by rw [← htrlen, ht, List.length_append]
    omega
  | none =>
    show wcount (dropTrailing isStripPunct (joinSp ((words text).take m)) ++ ['.']) ≤ m
    set tr := (words text).take m with htr
    have htrne : tr ≠ [] := by
      intro hh
      rw [hh] at htrlen
      simp at htrlen
      omega
    set w := tr.getLast htrne with hw
    set ws0 := tr.dropLast with hws0
    have hdecomp : ws0 ++ [w] = tr := List.dropLast_append_getLast htrne
    have hwgood : goodWord w := htrgood w (List.getLast_mem htrne)
    by_cases h0 : ws0 = []
    · have htr1 : tr = [w] := by rw [← hdecomp, h0]; rfl
      have hj : joinSp tr = w := by rw [htr1]; rfl
      rw [hj]
      have hsub : ∀ c ∈ dropTrailing isStripPunct w, pyIsSpace c = false :=
        fun c hc => hwgood.2 c (dropTrailing_subset _ _ c hc)
      by_cases hz : dropTrailing isStripPunct w = []
      · rw [hz]
        have : wcount ([] ++ ['.']) = 1 := by decide
        omega
      · rw [wcount, words_concat_dot_good _ hz hsub]
        simpa using hm
    · have hj : joinSp tr = joinSp ws0 ++ ' ' :: w := by
        rw [← hdecomp, joinSp_concat _ _ h0]
      have hds : dropTrailing isStripPunct [' '] = [' '] := by decide
      have hsw : (' ' :: w) = [' '] ++ w := rfl
      have hgood0 : ∀ u ∈ ws0, goodWord u := by
        intro u hu
        exact htrgood u (hdecomp ▸ List.mem_append_left [w] hu)
      have hlen0 : ws0.length + 1 = m := by
        rw [← htrlen, ← hdecomp, List.length_append, List.length_singleton]
      by_cases hz : dropTrailing isStripPunct w = []
      · have hb : dropTrailing isStripPunct (' ' :: w) = [' '] := by
          rw [hsw, dropTrailing_append, if_pos hz, hds]
        rw [hj, dropTrailing_append, if_neg (by rw [hb]; simp), hb]
        have : joinSp ws0 ++ [' '] ++ ['.'] = joinSp (ws0 ++ [['.']]) := by
          rw [joinSp_concat _ _ h0]
          simp
        rw [this, wcount, words_joinSp _ ?_]
        · rw [List.length_append, List.length_singleton]
          omega
        · intro u hu
          rcases List.mem_append.mp hu with h1 | h2
          · exact hgood0 u h1
          · simp at h2
            subst h2
            exact ⟨by simp, by intro c hc; simp at hc; subst hc; rfl⟩
      · have hb : dropTrailing isStripPunct (' ' :: w) = ' ' :: dropTrailing isStripPunct w := by
          rw [hsw, dropTrailing_append, if_neg hz]
          rfl
        rw [hj, dropTrailing_append, if_neg (by rw [hb]; simp), hb]
        have : joinSp ws0 ++ (' ' :: dropTrailing isStripPunct w) ++ ['.'] =
            joinSp (ws0 ++ [dropTrailing isStripPunct w ++ ['.']]) := by
          rw [joinSp_concat _ _ h0]
          simp
        rw [this, wcount, words_joinSp _ ?_]
        · rw [List.length_append, List.length_singleton]
          omega
        · intro u hu
          rcases List.mem_append.mp hu with h1 | h2
          · exact hgood0 u h1
          · simp at h2
            subst h2
            refine ⟨by simp [hz], ?_⟩
            intro c hc
            rcases List.mem_append.mp hc with hc1 | hc2
            · exact hwgood.2 c (dropTrailing_subset _ _ c hc1)
            · simp at hc2
              subst hc2
              rfl

/-! ### Claim C2: truncate_to_words guarantees -/

/-- C2 (counterexample): the claim "for every text and every maxWords the
output of truncate_to_words always ends in a sentence terminator" is false:
an input below the word budget is returned unchanged even when it has no
terminator at all. -/
theorem truncate_no_terminator_short_input :
    truncate_to_words "hello".data 3 = "hello".data ∧
    endsTerm (truncate_to_words "hello".data 3) = false := by
  constructor <;> decide

/-- C2 (amended): an input whose word count is at most `maxWords` is
returned unchanged (hence need not end in a terminator); when the word
count exceeds `maxWords`, the output ends in a sentence terminator
(`.`, `!` or `?`), and, provided `maxWords ≥ 1`, has at most `maxWords`
words. -/
theorem truncate_to_words_spec (text : Str) (m : Nat) :
    (wcount text ≤ m → truncate_to_words text m = text) ∧
    (m < wcount text →
      endsTerm (truncate_to_words text m) = true ∧
      (1 ≤ m → wcount (truncate_to_words text m) ≤ m)) :=
  ⟨truncate_unchanged text m,
   fun h => ⟨truncate_endsTerm text m h, fun hm => truncate_wcount text m h hm⟩⟩

/-- C2 (witness): the theorem applied to the spec's own example
`truncate_to_words "The cat sat. It slept." 3 = "The cat sat."`. -/
theorem truncate_to_words_spec_witness :
    endsTerm (truncate_to_words "The cat sat. It slept.".data 3) = true ∧
    wcount (truncate_to_words "The cat sat. It slept.".data 3) ≤ 3 ∧
    truncate_to_words "The cat sat. It slept.".data 3 = "The cat sat.".data :=
  ⟨((truncate_to_words_spec "The cat sat. It slept.".data 3).2 (by decide)).1,
   ((truncate_to_words_spec "The cat sat. It slept.".data 3).2 (by decide)).2 (by decide),
   by decide⟩

/-! ### Claim C3: chunker invariants -/

/-- C3 (counterexample): the claim "no chunk is the empty string / every
chunk contains at least one sentence" is false: when the first sentence
alone exceeds `maxWords`, `chunk_text` emits an initial empty chunk. -/
theorem chunk_text_emits_empty_chunk : [] ∈ chunk_text "a b. c.".data 1 := by decide

/-- C3 (amended): every chunk emitted by `chunk_text` is the whitespace
join of a group of consecutive sentences of the input; the groups
concatenate back to exactly the original sentence sequence, and any chunk
whose word count exceeds `maxWords` consists of a single sentence.  (A
chunk may however be the empty string, e.g. the initial chunk emitted when
the first sentence alone exceeds `maxWords`.) -/
theorem chunk_text_structure (text : Str) (maxWords : Nat) :
    ∃ gs : List (List Str),
      chunk_text text maxWords = gs.map joinSp ∧
      gs.flatten = sentSplit text ∧
      ∀ g ∈ gs, maxWords < wcount (joinSp g) → g.length = 1 := by
  refine ⟨chunkGroups maxWords (sentSplit text) [] 0, rfl,
    by simpa using chunkGroups_join maxWords (sentSplit text) [] 0, ?_⟩
  intro g hg hlt
  rw [wcount_joinSp] at hlt
  exact chunkGroups_oversize maxWords (sentSplit text) [] 0 rfl
    (Or.inl (by simp [sumW])) g hg hlt

/-- C3 (witness): the structure theorem instantiated at a concrete input. -/
theorem chunk_text_structure_witness :
    ∃ gs : List (List Str),
      chunk_text "Hi there. Bye now. Ok.".data 4 = gs.map joinSp ∧
      gs.flatten = sentSplit "Hi there. Bye now. Ok.".data ∧
      ∀ g ∈ gs, 4 < wcount (joinSp g) → g.length = 1 :=
  chunk_text_structure "Hi there. Bye now. Ok.".data 4

/-! ### Claim C7: scale_summary_length -/

/-- C7: `scale_summary_length` is a pure total function with the exact
boundaries demanded by the spec, and for every word count the returned
pair satisfies `0 < min < max`. -/
theorem scale_summary_length_spec :
    scale_summary_length 49 = (20, 30) ∧ scale_summary_length 50 = (30, 50) ∧
    scale_summary_length 149 = (30, 50) ∧ scale_summary_length 150 = (50, 100) ∧
    scale_summary_length 499 = (50, 100) ∧ scale_summary_length 500 = (80, 160) ∧
    ∀ n : Nat, 0 < (scale_summary_length n).1 ∧
      (scale_summary_length n).1 < (scale_summary_length n).2 := by
  refine ⟨by decide, by decide, by decide, by decide, by decide, by decide, ?_⟩
  intro n
  unfold scale_summary_length
  split_ifs <;> simp

/-! ### Claim C8: chunking the empty string -/

/-- C8 (counterexample): `chunk_text` applied to the empty string does not
produce an empty list of chunks. -/
theorem chunk_text_empty_ne_nil : chunk_text [] 600 ≠ [] := by decide

/-- C8 (amended): `chunk_text` applied to the empty string produces, for
every `maxWords`, a one-element list containing the empty string (the
final `if current_chunk` test sees the truthy list `[""]`). -/
theorem chunk_text_empty_input (m : Nat) : chunk_text [] m = [[]] := by
  have h1 : sentSplit ([] : Str) = [[]] := rfl
  rw [chunk_text, h1]
  simp [chunkGroups, wcount, words, wordsAcc, joinSp]

/-! ### Claim C4: the birth-question branch of the Answer Formatter -/

/-- C4 (counterexample): when the normalised answer ends in `!`, the birth
branch appends an extra period after the answer's own terminator, so the
result is not `"She was born in "` followed by the answer alone. -/
theorem build_fluent_answer_birth_extra_period :
    build_fluent_answer "Where was she born?".data "Poland!".data [] 0 =
      "She was born in poland!.".data ∧
    build_fluent_answer "Where was she born?".data "Poland!".data [] 0 ≠
      "She was born in ".data ++ lowerFirst (normAns "Poland!".data) := by
  constructor <;> decide

/-- C4 (amended): on a birth question with a non-blank answer not starting
with in/on/at, the formatter returns `"She was born in "` followed by the
normalised answer with its first letter lowered — with nothing further
appended when that answer ends in `.`, but with an extra `.` appended when
it ends in `!` or `?` (the code tests `ans.endswith('.')` only). -/
theorem build_fluent_answer_birth (q raw ctx : Str) (choice : Nat)
    (hne : pyStrip raw ≠ [])
    (hb : (hasInfix (lowerStr q) "born".data || hasInfix (lowerStr q) "birth".data) = true)
    (hst : startsWithOne ["in ".data, "on ".data, "at ".data] (lowerStr (normAns raw)) = false) :
    build_fluent_answer q raw ctx choice =
      "She was born in ".data ++ lowerFirst (normAns raw) ++
        (if endsWithChar '.' (normAns raw) then [] else ['.']) := by
  rw [build_fluent_answer, if_neg hne, if_pos hb, if_pos (by rw [hst]; rfl)]
  by_cases hd : endsWithChar '.' (normAns raw) = true
  · rw [if_pos hd, if_pos hd]
    simp
  · rw [if_neg hd, if_neg hd]

/-- C4 (witness): the theorem applied to the spec's own example, question
`"Where was she born?"` with raw answer `"Poland"`. -/
theorem build_fluent_answer_birth_witness :
    build_fluent_answer "Where was she born?".data "Poland".data [] 0 =
      "She was born in ".data ++ lowerFirst (normAns "Poland".data) ++
        (if endsWithChar '.' (normAns "Poland".data) then [] else ['.']) ∧
    build_fluent_answer "Where was she born?".data "Poland".data [] 0 =
      "She was born in poland.".data :=
  ⟨build_fluent_answer_birth "Where was she born?".data "Poland".data [] 0
      (by decide) (by decide) (by decide),
   by decide⟩

/-! ### Claim C5: the Answer Controller -/

/-- C5: `answer_question` raises `InvalidInput` (the `ValueError`) exactly
when question or context strips to empty; otherwise a provider failure is
converted to the neutral fallback answer with confidence 0, and a provider
success yields the formatted answer with the score rounded to 4 decimal
places. -/
theorem answer_question_blank (q ctx : Str) (provider : Except Unit (Str × ℚ))
    (choice : Nat) (h : pyStrip q = [] ∨ pyStrip ctx = []) :
    answer_question q ctx provider choice =
      Except.error "Question and context cannot be empty.".data := by
  unfold answer_question
  rw [if_pos h]

theorem answer_question_ok (q ctx raw : Str) (score : ℚ) (choice : Nat)
    (h : ¬(pyStrip q = [] ∨ pyStrip ctx = [])) :
    answer_question q ctx (Except.ok (raw, score)) choice =
      Except.ok ⟨build_fluent_answer q raw ctx choice, pyRound4 score⟩ := by
  unfold answer_question
  rw [if_neg h]

theorem answer_question_err (q ctx : Str) (e : Unit) (choice : Nat)
    (h : ¬(pyStrip q = [] ∨ pyStrip ctx = [])) :
    answer_question q ctx (Except.error e) choice =
      Except.ok ⟨"Unable to determine answer.".data, 0⟩ := by
  unfold answer_question
  rw [if_neg h]

theorem answer_question_spec (q ctx : Str) (provider : Except Unit (Str × ℚ)) (choice : Nat) :
    (answer_question q ctx provider choice =
        Except.error "Question and context cannot be empty.".data ↔
      (pyStrip q = [] ∨ pyStrip ctx = [])) ∧
    (¬(pyStrip q = [] ∨ pyStrip ctx = []) →
      (∀ e, provider = Except.error e →
        answer_question q ctx provider choice =
          Except.ok ⟨"Unable to determine answer.".data, 0⟩) ∧
      (∀ raw score, provider = Except.ok (raw, score) →
        answer_question q ctx provider choice =
          Except.ok ⟨build_fluent_answer q raw ctx choice, pyRound4 score⟩)) := by
  by_cases hcond : pyStrip q = [] ∨ pyStrip ctx = []
  · exact ⟨⟨fun _ => hcond, fun _ => answer_question_blank q ctx provider choice hcond⟩,
      fun h => absurd hcond h⟩
  · cases provider with
    | ok p =>
      obtain ⟨raw, score⟩ := p
      refine ⟨⟨fun h => ?_, fun h => absurd h hcond⟩,
        fun _ => ⟨(fun e he => by cases he), fun raw2 score2 hok => ?_⟩⟩
      · rw [answer_question_ok q ctx raw score choice hcond] at h
        exact absurd h (by simp)
      · cases hok
        exact answer_question_ok q ctx raw score choice hcond
    | error e =>
      refine ⟨⟨fun h => ?_, fun h => absurd h hcond⟩,
        fun _ => ⟨fun e2 he => ?_, (fun raw2 score2 hok => by cases hok)⟩⟩
      · rw [answer_question_err q ctx e choice hcond] at h
        exact absurd h (by simp)
      · cases he
        exact answer_question_err q ctx e choice hcond

/-- C5 (witness): a concrete blank question is rejected, and a concrete
provider failure on non-blank input yields the neutral fallback. -/
theorem answer_question_spec_witness :
    answer_question "  ".data "ctx".data (Except.error ()) 0 =
      Except.error "Question and context cannot be empty.".data ∧
    answer_question "Hi".data "There".data (Except.error ()) 0 =
      Except.ok ⟨"Unable to determine answer.".data, 0⟩ :=
  ⟨(answer_question_spec "  ".data "ctx".data (Except.error ()) 0).1.mpr
      (Or.inl (by decide)),
   ((answer_question_spec "Hi".data "There".data (Except.error ()) 0).2
      (by intro h; rcases h with h | h <;> revert h <;> decide)).1 () rfl⟩

/-! ### Claim C9: the "She was" preamble collapses to no preamble -/

theorem composeAns_she_was (ans : Str) : composeAns "She was".data ans = ans := by
  rw [composeAns]
  have h0 : pyStrip (replaceAll "she was".data [] (lowerStr "She was".data)) = ([] : Str) := by
    decide
  rw [h0]
  simp

/-- C9: on a non-birth question with a non-blank answer, whenever the
selected preamble is exactly `"She was"`, the repetition guard strips the
preamble to the empty string, every string starts with the empty string,
and the formatter returns the normalised answer with no preamble at all. -/
theorem build_fluent_answer_no_preamble (q raw ctx : Str) (choice : Nat)
    (hne : pyStrip raw ≠ [])
    (hb : (hasInfix (lowerStr q) "born".data || hasInfix (lowerStr q) "birth".data) = false)
    (hpre : choosePre (lowerStr q) (normAns raw) choice = "She was".data) :
    build_fluent_answer q raw ctx choice = normAns raw := by
  rw [build_fluent_answer, if_neg hne, if_neg (by rw [hb]; exact Bool.false_ne_true),
    hpre, composeAns_she_was]

/-- C9 (witness): the non-WH question `"how"` with `choice = 0` selects
`"She was"`, and the answer `"Paris"` comes back as just `"Paris."`. -/
theorem build_fluent_answer_no_preamble_witness :
    build_fluent_answer "how".data "Paris".data [] 0 = normAns "Paris".data ∧
    normAns "Paris".data = "Paris.".data :=
  ⟨build_fluent_answer_no_preamble "how".data "Paris".data [] 0
      (by decide) (by decide) (by decide),
   by decide⟩

/-! ### Character-level lemmas for the case maps -/

theorem char_eq_of_toNat_eq {a b : Char} (h : a.toNat = b.toNat) : a = b := by
  apply Char.ext
  apply UInt32.toNat.inj
  exact h

theorem toNat_ofNat_lt (n : Nat) (h1 : n < 55296) : (Char.ofNat n).toNat = n := by
  rw [Char.ofNat, dif_pos (Or.inl h1)]
  show (UInt32.ofNat' n _).toNat = n
  rw [UInt32.ofNat']
  simp [UInt32.toNat, BitVec.toNat_ofNatLt]

theorem toNat_pyToUpper (c : Char) :
    (pyToUpper c).toNat = if 97 ≤ c.toNat ∧ c.toNat ≤ 122 then c.toNat - 32 else c.toNat := by
  unfold pyToUpper
  split_ifs with h
  · exact toNat_ofNat_lt _ (by omega)
  · rfl

theorem pyToUpper_idem (c : Char) : pyToUpper (pyToUpper c) = pyToUpper c := by
  apply char_eq_of_toNat_eq
  rw [toNat_pyToUpper (pyToUpper c), toNat_pyToUpper c]
  split_ifs <;> omega

theorem pyIsSpace_pyToUpper (c : Char) : pyIsSpace (pyToUpper c) = pyIsSpace c := by
  unfold pyIsSpace
  rw [toNat_pyToUpper c]
  split_ifs with h
  · rw [Bool.eq_iff_iff]
    simp only [Bool.or_eq_true, decide_eq_true_eq]
    omega
  · rfl

theorem toNat_pyToLower (c : Char) :
    (pyToLower c).toNat = if 65 ≤ c.toNat ∧ c.toNat ≤ 90 then c.toNat + 32 else c.toNat := by
  unfold pyToLower
  split_ifs with h
  · exact toNat_ofNat_lt _ (by omega)
  · rfl

theorem char_ne_of_toNat_ne {a b : Char} (h : a.toNat ≠ b.toNat) : a ≠ b :=
  fun he => h (he ▸ rfl)

theorem pyToLower_pyToUpper (c : Char) : pyToLower (pyToUpper c) = pyToLower c := by
  apply char_eq_of_toNat_eq
  rw [toNat_pyToLower, toNat_pyToLower, toNat_pyToUpper]
  split_ifs <;> omega

theorem isWordChar_pyToLower (c : Char) : isWordChar (pyToLower c) = isWordChar c := by
  unfold isWordChar
  rw [toNat_pyToLower c]
  split_ifs with h
  · rw [Bool.eq_iff_iff]
    simp only [Bool.or_eq_true, Bool.and_eq_true, decide_eq_true_eq]
    omega
  · rfl

theorem alpha_toNat {c : Char} (h : isAsciiAlpha c = true) :
    (65 ≤ c.toNat ∧ c.toNat ≤ 90) ∨ (97 ≤ c.toNat ∧ c.toNat ≤ 122) := by
  simpa [isAsciiAlpha, Bool.or_eq_true, Bool.and_eq_true, decide_eq_true_eq] using h

theorem isAsciiAlpha_pyToUpper {c : Char} (h : isAsciiAlpha c = true) :
    isAsciiAlpha (pyToUpper c) = true := by
  have := alpha_toNat h
  unfold isAsciiAlpha
  rw [toNat_pyToUpper c]
  simp only [Bool.or_eq_true, Bool.and_eq_true, decide_eq_true_eq]
  split_ifs <;> omega

theorem isWordChar_of_alpha {c : Char} (h : isAsciiAlpha c = true) : isWordChar c = true := by
  have := alpha_toNat h
  unfold isWordChar
  simp only [Bool.or_eq_true, Bool.and_eq_true, decide_eq_true_eq]
  omega

theorem alpha_not_space {c : Char} (h : isAsciiAlpha c = true) : pyIsSpace c = false := by
  have := alpha_toNat h
  unfold pyIsSpace
  simp only [Bool.or_eq_true, decide_eq_true_eq, Bool.or_eq_false_iff, decide_eq_false_iff_not]
  omega

theorem alpha_ne_low {c : Char} (d : Char) (hc : isAsciiAlpha c = true)
    (hd : d.toNat < 65) : c ≠ d := by
  have := alpha_toNat hc
  exact char_ne_of_toNat_ne (by omega)

theorem isTerm_alpha {c : Char} (h : isAsciiAlpha c = true) : isTerm c = false := by
  rw [isTerm]
  simp [alpha_ne_low '.' h (by decide), alpha_ne_low '!' h (by decide),
    alpha_ne_low '?' h (by decide)]

theorem endsTerm_alphaWord {w : Str} (h : alphaWord w) : endsTerm w = false := by
  obtain ⟨hne, ha⟩ := h
  rw [endsTerm]
  cases hl : w.getLast? with
  | none => rfl
  | some d =>
    exact isTerm_alpha (ha d (List.mem_of_mem_getLast? (by simp [hl])))

/-! ### Lemmas about pyStrip -/

theorem dropWhile_head_false {p : Char → Bool} {l : Str} {c : Char} {t : Str}
    (h : l.dropWhile p = c :: t) : p c = false := by
  induction l with
  | nil => simp at h
  | cons a u ih =>
    rw [List.dropWhile_cons] at h
    by_cases ha : p a = true
    · rw [if_pos ha] at h
      exact ih h
    · rw [if_neg ha] at h
      cases h
      exact Bool.not_eq_true _ ▸ ha

theorem pyStrip_head_not_space {s : Str} {c : Char} {t : Str}
    (h : pyStrip s = c :: t) : pyIsSpace c = false := by
  obtain ⟨r, hr⟩ := dropTrailing_eq_self_append pyIsSpace (s.dropWhile pyIsSpace)
  rw [show dropTrailing pyIsSpace (s.dropWhile pyIsSpace) = pyStrip s from rfl, h] at hr
  exact dropWhile_head_false hr

theorem pyStrip_last_not_space {s : Str} {d : Char}
    (h : (pyStrip s).getLast? = some d) : pyIsSpace d = false := by
  rw [← List.head?_reverse] at h
  rw [pyStrip, dropTrailing, List.reverse_reverse] at h
  cases hh : (s.dropWhile pyIsSpace).reverse.dropWhile pyIsSpace with
  | nil => rw [hh] at h; cases h
  | cons x u =>
    rw [hh] at h
    cases h
    exact dropWhile_head_false hh

theorem pyStrip_no_op {s : Str} {h d : Char} {v : Str} (hs : s = h :: v)
    (hh : pyIsSpace h = false) (hlast : s.getLast? = some d)
    (hd : pyIsSpace d = false) : pyStrip s = s := by
  subst hs
  rw [pyStrip, List.dropWhile_cons, if_neg (by simp [hh]), dropTrailing]
  cases hr : (h :: v).reverse with
  | nil => simp at hr
  | cons x u =>
    have hx : x = d := by
      have h2 := List.head?_reverse (l := h :: v)
      rw [hr, hlast] at h2
      exact Option.some.inj h2
    rw [List.dropWhile_cons, if_neg (by simp [hx, hd]), ← hr, List.reverse_reverse]

theorem endsWithChar_iff {c : Char} {s : Str} :
    endsWithChar c s = true ↔ s.getLast? = some c := by
  rw [endsWithChar]
  cases h : s.getLast? with
  | none => simp
  | some d => simp

theorem endsTerm_of_last_dot {s : Str} (h : s.getLast? = some '.') : endsTerm s = true := by
  rw [endsTerm, h]
  rfl

/-! ### The head of a truncated string -/

theorem joinSp_head (c : Char) (w : Str) (rest : List Str) :
    ∃ v, joinSp ((c :: w) :: rest) = c :: v := by
  cases rest with
  | nil => exact ⟨w, rfl⟩
  | cons x u => exact ⟨w ++ ' ' :: joinSp (x :: u), rfl⟩

theorem truncate_head_cases (u : Str) (h : Char) (v : Str) (hu : u = h :: v)
    (hh : pyIsSpace h = false) (m : Nat) (hm : 1 ≤ m) (hlt : m < wcount u) :
    (∃ v2, truncate_to_words u m = h :: v2) ∨ truncate_to_words u m = ['.'] := by
  obtain ⟨r0, rest0, hw⟩ := words_head h v hh
  rw [← hu] at hw
  obtain ⟨k, hk⟩ : ∃ k, m = k + 1 := ⟨m - 1, by omega⟩
  have htr : (words u).take m = (h :: r0) :: rest0.take k := by
    rw [hw, hk, List.take_succ_cons]
  rw [truncate_to_words, if_neg (show ¬(words u).length ≤ m from Nat.not_le_of_lt hlt)]
  cases hc : cutAtLastTerm ((words u).take m) with
  | some r =>
    left
    show ∃ v2, joinSp r = h :: v2
    obtain ⟨⟨t, ht⟩, w0, hl0, _⟩ := cutAtLastTerm_some _ r hc
    cases hr : r with
    | nil =>
      rw [hr] at hl0
      cases hl0
    | cons x xs =>
      rw [htr, hr] at ht
      injection ht with hx _
      rw [← hx]
      exact joinSp_head h r0 xs
  | none =>
    show (∃ v2, dropTrailing isStripPunct (joinSp ((words u).take m)) ++ ['.'] = h :: v2) ∨
      dropTrailing isStripPunct (joinSp ((words u).take m)) ++ ['.'] = ['.']
    obtain ⟨v1, hj⟩ : ∃ v1, joinSp ((words u).take m) = h :: v1 := by
      rw [htr]
      exact joinSp_head h r0 (rest0.take k)
    cases hdt : dropTrailing isStripPunct (joinSp ((words u).take m)) with
    | nil =>
      right
      rfl
    | cons x xs =>
      left
      obtain ⟨rr, hrr⟩ := dropTrailing_eq_self_append isStripPunct (joinSp ((words u).take m))
      rw [hdt, hj] at hrr
      injection hrr with hx _
      refine ⟨xs ++ ['.'], ?_⟩
      rw [← hx]
      rfl

/-! ### Claim C10: the shape of improve_summary output -/

/-- C10: for every input and every word budget, `improve_summary` returns
either the empty string or a string whose first character is a fixed point
of the uppercase map and which ends in `.`, `!` or `?`. -/
theorem improve_summary_shape (s : Str) (maxWords : Nat) :
    improve_summary s maxWords = [] ∨
    ∃ c t, improve_summary s maxWords = c :: t ∧ pyToUpper c = c ∧
      endsTerm (improve_summary s maxWords) = true := by
  rw [improve_summary]
  cases hv : pyStrip (refineRules s) with
  | nil =>
    left
    rw [show ensureDot (capFirst ([] : Str)) = [] from rfl,
      truncate_unchanged [] _ (Nat.zero_le _)]
    rfl
  | cons c0 t0 =>
    right
    have hns : pyIsSpace c0 = false := pyStrip_head_not_space hv
    have hcap : capFirst (c0 :: t0) = pyToUpper c0 :: t0 := rfl
    rw [hcap]
    set h := pyToUpper c0 with hhdef
    have hh : pyIsSpace h = false := by rw [hhdef, pyIsSpace_pyToUpper]; exact hns
    have hidem : pyToUpper h = h := by rw [hhdef, pyToUpper_idem]
    -- the ensureDot output: starts with h, ends with '.'
    obtain ⟨v, hu, hlast⟩ :
        ∃ v, ensureDot (h :: t0) = h :: v ∧ (ensureDot (h :: t0)).getLast? = some '.' := by
      rw [ensureDot]
      by_cases hdot : endsWithChar '.' (h :: t0) = true
      · rw [if_neg (by simp [hdot])]
        exact ⟨t0, rfl, endsWithChar_iff.mp hdot⟩
      · rw [if_pos (by simp [hdot])]
        exact ⟨t0 ++ ['.'], rfl, List.getLast?_concat (h :: t0)⟩
    set u := ensureDot (h :: t0) with hudef
    set mm := max 20 (min 100 maxWords) with hmm
    have hm1 : 1 ≤ mm := le_trans (by norm_num) (le_max_left 20 (min 100 maxWords))
    by_cases hcnt : wcount u ≤ mm
    · -- below the budget: truncation and the final strip are no-ops
      rw [truncate_unchanged u mm hcnt, pyStrip_no_op hu hh hlast (by decide)]
      exact ⟨h, v, hu, hidem, by rw [hu] at hlast ⊢; exact endsTerm_of_last_dot hlast⟩
    · have hlt : mm < wcount u := by omega
      have hterm : endsTerm (truncate_to_words u mm) = true := truncate_endsTerm u mm hlt
      obtain ⟨d, hd, hdterm⟩ : ∃ d, (truncate_to_words u mm).getLast? = some d ∧
          isTerm d = true := by
        rw [endsTerm] at hterm
        cases hgl : (truncate_to_words u mm).getLast? with
        | none => rw [hgl] at hterm; cases hterm
        | some d => rw [hgl] at hterm; exact ⟨d, rfl, hterm⟩
      have hdns : pyIsSpace d = false := by
        rw [isTerm] at hdterm
        rcases Bool.or_eq_true .. ▸ hdterm with hx | hx
        · rcases Bool.or_eq_true .. ▸ hx with hy | hy
          · rw [decide_eq_true_eq] at hy; subst hy; decide
          · rw [decide_eq_true_eq] at hy; subst hy; decide
        · rw [decide_eq_true_eq] at hx; subst hx; decide
      rcases truncate_head_cases u h v hu hh mm hm1 hlt with ⟨v2, hv2⟩ | hdot
      · rw [pyStrip_no_op hv2 hh hd hdns]
        exact ⟨h, v2, hv2, hidem, hterm⟩
      · rw [hdot]
        exact ⟨'.', [], by decide, by decide, by decide⟩

/-! ### Structure of DotStr sentences -/

theorem DotStr_cons (w : Str) (ws : List Str) (hws : ws ≠ []) :
    DotStr (w :: ws) = w ++ ' ' :: DotStr ws := by
  cases ws with
  | nil => exact absurd rfl hws
  | cons x t =>
    show (w ++ ' ' :: joinSp (x :: t)) ++ ['.'] = w ++ ' ' :: (joinSp (x :: t) ++ ['.'])
    simp

theorem DotStr_word_nil (x : Char) (w : Str) : DotStr [x :: w] = x :: (w ++ ['.']) := rfl

theorem DotStr_word_cons (x : Char) (w : Str) (y : Str) (t : List Str) :
    DotStr ((x :: w) :: y :: t) = x :: (w ++ ' ' :: DotStr (y :: t)) := by
  rw [DotStr_cons _ _ (by simp)]
  rfl

theorem capFirst_DotStr (c : Char) (w : Str) (ws : List Str) :
    capFirst (DotStr ((c :: w) :: ws)) = DotStr ((pyToUpper c :: w) :: ws) := by
  cases ws with
  | nil => rw [DotStr_word_nil, DotStr_word_nil]; rfl
  | cons y t => rw [DotStr_word_cons, DotStr_word_cons]; rfl

theorem chain'_alpha_word {w : Str} (h : ∀ c ∈ w, isAsciiAlpha c = true) :
    List.Chain' dotAdj w := by
  induction w with
  | nil => exact List.chain'_nil
  | cons c t ih =>
    rw [List.chain'_cons']
    refine ⟨?_, ih (fun d hd => h d (by simp [hd]))⟩
    intro b hb
    exact Or.inl ⟨h c (by simp), Or.inl (h b (by
      simp only [List.mem_cons]
      right
      exact List.mem_of_mem_head? hb))⟩

theorem DotStr_head_alpha {ws : List Str} (w2 : Str) (t : List Str) (hws : ws = w2 :: t)
    (ha : ∀ w ∈ ws, alphaWord w) :
    ∀ b ∈ (DotStr ws).head?, isAsciiAlpha b = true := by
  subst hws
  obtain ⟨hne, hal⟩ := ha w2 (by simp)
  obtain ⟨c2, w2', hw2⟩ := List.exists_cons_of_ne_nil hne
  subst hw2
  intro b hb
  cases t with
  | nil =>
    rw [DotStr_word_nil] at hb
    simp only [List.head?_cons, Option.mem_def, Option.some.injEq] at hb
    exact hb ▸ hal c2 (by simp)
  | cons y u =>
    rw [DotStr_word_cons] at hb
    simp only [List.head?_cons, Option.mem_def, Option.some.injEq] at hb
    exact hb ▸ hal c2 (by simp)

theorem chain'_DotStr {ws : List Str} (ha : ∀ w ∈ ws, alphaWord w) :
    List.Chain' dotAdj (DotStr ws) := by
  induction ws with
  | nil => exact List.chain'_singleton '.'
  | cons w ws' ih =>
    have hw := ha w (by simp)
    have haw : ∀ c ∈ w, isAsciiAlpha c = true := hw.2
    have hlastw : ∀ x ∈ w.getLast?, isAsciiAlpha x = true :=
      fun x hx => haw x (List.mem_of_mem_getLast? hx)
    cases ws' with
    | nil =>
      show List.Chain' dotAdj (w ++ ['.'])
      rw [List.chain'_append]
      refine ⟨chain'_alpha_word haw, List.chain'_singleton '.', ?_⟩
      intro x hx y hy
      simp only [List.head?_cons, Option.mem_def, Option.some.injEq] at hy
      exact Or.inl ⟨hlastw x hx, Or.inr (Or.inr hy.symm)⟩
    | cons w2 t =>
      rw [DotStr_cons _ _ (by simp), List.chain'_append]
      refine ⟨chain'_alpha_word haw, ?_, ?_⟩
      · rw [List.chain'_cons']
        refine ⟨?_, ih (fun u hu => ha u (by simp [hu]))⟩
        intro b hb
        exact Or.inr ⟨rfl, DotStr_head_alpha w2 t rfl (fun u hu => ha u (by simp [hu])) b hb⟩
      · intro x hx y hy
        simp only [List.head?_cons, Option.mem_def, Option.some.injEq] at hy
        exact Or.inl ⟨hlastw x hx, Or.inr (Or.inl hy.symm)⟩

theorem NoDotSpace_DotStr {ws : List Str} (ha : ∀ w ∈ ws, alphaWord w) :
    NoDotSpace (DotStr ws) := by
  refine (chain'_DotStr ha).imp ?_
  intro a b hab
  rcases hab with ⟨haa, _⟩ | ⟨haa, _⟩
  · intro ⟨h1, _⟩
    exact alpha_ne_low '.' haa (by decide) h1
  · intro ⟨h1, _⟩
    rw [haa] at h1
    cases h1

theorem NoWsPunct_DotStr {ws : List Str} (ha : ∀ w ∈ ws, alphaWord w) :
    NoWsPunct (DotStr ws) := by
  refine (chain'_DotStr ha).imp ?_
  intro a b hab hws
  rcases hab with ⟨haa, _⟩ | ⟨_, hbb⟩
  · rw [alpha_not_space haa] at hws
    cases hws
  · exact ⟨alpha_not_space hbb, alpha_ne_low '.' hbb (by decide),
      alpha_ne_low ',' hbb (by decide)⟩

theorem NoDoubleWs_DotStr {ws : List Str} (ha : ∀ w ∈ ws, alphaWord w) :
    NoDoubleWs (DotStr ws) := by
  refine (chain'_DotStr ha).imp ?_
  intro a b hab
  rcases hab with ⟨haa, _⟩ | ⟨_, hbb⟩
  · intro ⟨h1, _⟩
    rw [alpha_not_space haa] at h1
    cases h1
  · intro ⟨_, h2⟩
    rw [alpha_not_space hbb] at h2
    cases h2

/-! ### The refiner rules are the identity on clean strings -/

theorem chain'_suffix {R : Char → Char → Prop} {p s : Str}
    (h : List.Chain' R (p ++ s)) : List.Chain' R s :=
  (List.chain'_append.mp h).2.1

theorem choppedCI_append {o s r : Str} (h : choppedCI o s = some r) : ∃ p, s = p ++ r := by
  induction o generalizing s with
  | nil =>
    cases h
    exact ⟨[], rfl⟩
  | cons c os ih =>
    cases s with
    | nil => cases h
    | cons d t =>
      rw [choppedCI] at h
      by_cases hd : pyToLower d = pyToLower c
      · rw [if_pos hd] at h
        obtain ⟨p, hp⟩ := ih h
        exact ⟨d :: p, by rw [hp]; rfl⟩
      · rw [if_neg hd] at h
        cases h

theorem findDotSpace_none {s : Str} (h : NoDotSpace s) : findDotSpace s = none := by
  induction s with
  | nil => rfl
  | cons c t ih =>
    rw [findDotSpace]
    by_cases h1 : c = '\n'
    · rw [if_pos h1]
    · rw [if_neg h1]
      have h2 : ¬((c = '.' && t.head? = some ' ') = true) := by
        simp only [Bool.and_eq_true, decide_eq_true_eq, not_and]
        intro hc hh
        cases t with
        | nil => cases hh
        | cons d r =>
          simp only [List.head?_cons, Option.some.injEq] at hh
          exact (List.chain'_cons.mp h).1 ⟨hc, hh⟩
      rw [if_neg h2]
      exact ih (List.Chain'.tail h)

theorem rule1Match_none {s : Str} (h : NoDotSpace s) : rule1Match s = none := by
  rw [rule1Match]
  cases hch : choppedCI phraseFiller s with
  | none => rfl
  | some rest =>
    obtain ⟨p, hp⟩ := choppedCI_append hch
    have hrest : NoDotSpace rest := chain'_suffix (hp ▸ h)
    simp only [Option.some_bind]
    by_cases hb : boundaryB rest = true
    · rw [if_pos hb]
      exact findDotSpace_none hrest
    · rw [if_neg hb]

theorem rule1Aux_id {s : Str} (h : NoDotSpace s) :
    ∀ fuel prevW, rule1Aux fuel prevW s = s := by
  induction s with
  | nil => intro fuel prevW; cases fuel <;> rfl
  | cons c t ih =>
    intro fuel prevW
    cases fuel with
    | zero => rfl
    | succ f =>
      rw [rule1Aux]
      cases prevW with
      | true =>
        rw [if_neg (by decide), ih (List.Chain'.tail h) f (isWordChar c)]
      | false =>
        rw [if_pos (by decide), rule1Match_none h, Option.elim_none,
          ih (List.Chain'.tail h) f (isWordChar c)]

theorem rule4Aux_nil : ∀ fuel, rule4Aux fuel [] = [] := by
  intro fuel; cases fuel <;> rfl

theorem rule4Aux_id {s : Str} (h : NoWsPunct s) : ∀ fuel, rule4Aux fuel s = s := by
  induction s with
  | nil => intro fuel; cases fuel <;> rfl
  | cons c t ih =>
    intro fuel
    cases fuel with
    | zero => rfl
    | succ f =>
      rw [rule4Aux]
      by_cases hws : pyIsSpace c = true
      · rw [if_pos hws]
        cases t with
        | nil =>
          rw [if_neg (by decide)]
          show [c] ++ rule4Aux f [] = [c]
          rw [rule4Aux_nil]
          rfl
        | cons d t1 =>
          have hrel := (List.chain'_cons.mp h).1 hws
          have hdrop : (d :: t1).dropWhile pyIsSpace = d :: t1 := by
            rw [List.dropWhile_cons, if_neg (by simp [hrel.1])]
          have htake : (d :: t1).takeWhile pyIsSpace = [] := by
            rw [List.takeWhile_cons, if_neg (by simp [hrel.1])]
          rw [hdrop]
          rw [if_neg (by simp [hrel.2.1, hrel.2.2])]
          rw [htake, ih (List.Chain'.tail h) f]
          rfl
      · rw [if_neg hws, ih (List.Chain'.tail h) f]

theorem theAfterDot_none {t : Str} (h : ∀ d, t.head? = some d → ¬(d = ' ')) :
    theAfterDot t = none := by
  cases t with
  | nil => rfl
  | cons d1 t1 =>
    have hd1 : ¬(d1 = ' ') := h d1 rfl
    cases t1 with
    | nil => rfl
    | cons d2 t2 =>
      cases t2 with
      | nil => rfl
      | cons d3 t3 =>
        cases t3 with
        | nil => rfl
        | cons d4 t4 =>
          rw [theAfterDot, if_neg (by simp [hd1])]

theorem rule5Aux_id {s : Str} (h : NoDotSpace s) : ∀ fuel, rule5Aux fuel s = s := by
  induction s with
  | nil => intro fuel; cases fuel <;> rfl
  | cons c t ih =>
    intro fuel
    cases fuel with
    | zero => rfl
    | succ f =>
      rw [rule5Aux]
      by_cases hc : c = '.'
      · rw [if_pos hc]
        have hth : theAfterDot t = none := by
          apply theAfterDot_none
          intro d hd
          cases t with
          | nil => cases hd
          | cons d1 t1 =>
            simp only [List.head?_cons, Option.some.injEq] at hd
            subst hd
            exact fun he => (List.chain'_cons.mp h).1 ⟨hc, he⟩
        rw [hth, Option.elim_none, ih (List.Chain'.tail h) f, hc]
      · rw [if_neg hc, ih (List.Chain'.tail h) f]

theorem rule6Aux_id {s : Str} (h : NoDoubleWs s) : ∀ fuel, rule6Aux fuel s = s := by
  induction s with
  | nil => intro fuel; cases fuel <;> rfl
  | cons c t ih =>
    intro fuel
    cases fuel with
    | zero => rfl
    | succ f =>
      rw [rule6Aux]
      by_cases hws : pyIsSpace c = true
      · rw [if_pos hws]
        have hh : t.head?.any pyIsSpace = false := by
          cases t with
          | nil => rfl
          | cons d t1 =>
            show pyIsSpace d = false
            cases hdd : pyIsSpace d with
            | false => rfl
            | true => exact absurd ⟨hws, hdd⟩ (List.chain'_cons.mp h).1
        rw [hh]
        rw [if_neg (by simp), ih (List.Chain'.tail h) f]
      · rw [if_neg hws, ih (List.Chain'.tail h) f]

/-! ### Rules 2 and 3 are the identity on repetition-free sentences -/

theorem takeWhile_word_append {p : Char → Bool} {xs ys : Str}
    (hx : ∀ c ∈ xs, p c = true) (hy : ∀ d, ys.head? = some d → p d = false) :
    (xs ++ ys).takeWhile p = xs ∧ (xs ++ ys).dropWhile p = ys := by
  induction xs with
  | nil =>
    cases ys with
    | nil => exact ⟨rfl, rfl⟩
    | cons d r =>
      have hd := hy d rfl
      constructor
      · rw [List.nil_append, List.takeWhile_cons, if_neg (by simp [hd])]
      · rw [List.nil_append, List.dropWhile_cons, if_neg (by simp [hd])]
  | cons c t ih =>
    have hc := hx c (by simp)
    obtain ⟨h1, h2⟩ := ih (fun d hd => hx d (by simp [hd]))
    constructor
    · rw [List.cons_append, List.takeWhile_cons, if_pos (by simp [hc]), h1]
    · rw [List.cons_append, List.dropWhile_cons, if_pos (by simp [hc]), h2]

theorem boundaryB_cons (d : Char) (t : Str) : boundaryB (d :: t) = !isWordChar d := rfl

theorem lowerStr_cons (c : Char) (t : Str) : lowerStr (c :: t) = pyToLower c :: lowerStr t := rfl

theorem chopped_words :
    ∀ w w2 rest2 r : Str, (∀ c ∈ w, isWordChar c = true) → (∀ c ∈ w2, isWordChar c = true) →
      boundaryB rest2 = true → chopped w (w2 ++ rest2) = some r → boundaryB r = true →
      w = w2 ∧ r = rest2 := by
  intro w
  induction w with
  | nil =>
    intro w2 rest2 r _ hw2 _ hc hbr
    cases hc
    cases w2 with
    | nil => exact ⟨rfl, rfl⟩
    | cons c2 t2 =>
      exfalso
      rw [List.cons_append, boundaryB_cons, hw2 c2 (by simp)] at hbr
      cases hbr
  | cons c w2head ih =>
    intro w2 rest2 r hw hw2 hb hc hbr
    cases w2 with
    | nil =>
      exfalso
      rw [List.nil_append] at hc
      cases rest2 with
      | nil => cases hc
      | cons d r2 =>
        rw [chopped] at hc
        have hcd : ¬(c = d) := by
          intro he
          rw [boundaryB_cons, ← he, hw c (by simp)] at hb
          exact absurd hb (by decide)
        rw [if_neg hcd] at hc
        cases hc
    | cons c2 t2 =>
      rw [List.cons_append, chopped] at hc
      by_cases hcc : c = c2
      · rw [if_pos hcc] at hc
        obtain ⟨h1, h2⟩ := ih t2 rest2 r (fun x hx => hw x (by simp [hx]))
          (fun x hx => hw2 x (by simp [hx])) hb hc hbr
        exact ⟨by rw [hcc, h1], h2⟩
      · rw [if_neg hcc] at hc
        cases hc

theorem choppedCI_words :
    ∀ w w2 rest2 r : Str, (∀ c ∈ w, isWordChar c = true) → (∀ c ∈ w2, isWordChar c = true) →
      boundaryB rest2 = true → choppedCI w (w2 ++ rest2) = some r → boundaryB r = true →
      lowerStr w = lowerStr w2 ∧ r = rest2 := by
  intro w
  induction w with
  | nil =>
    intro w2 rest2 r _ hw2 _ hc hbr
    cases hc
    cases w2 with
    | nil => exact ⟨rfl, rfl⟩
    | cons c2 t2 =>
      exfalso
      rw [List.cons_append, boundaryB_cons, hw2 c2 (by simp)] at hbr
      cases hbr
  | cons c w2head ih =>
    intro w2 rest2 r hw hw2 hb hc hbr
    cases w2 with
    | nil =>
      exfalso
      rw [List.nil_append] at hc
      cases rest2 with
      | nil => cases hc
      | cons d r2 =>
        rw [choppedCI] at hc
        have hcd : ¬(pyToLower d = pyToLower c) := by
          intro he
          have h2 : isWordChar (pyToLower d) = isWordChar (pyToLower c) := by rw [he]
          rw [isWordChar_pyToLower, isWordChar_pyToLower, hw c (by simp)] at h2
          rw [boundaryB_cons, h2] at hb
          exact absurd hb (by decide)
        rw [if_neg hcd] at hc
        cases hc
    | cons c2 t2 =>
      rw [List.cons_append, choppedCI] at hc
      by_cases hcc : pyToLower c2 = pyToLower c
      · rw [if_pos hcc] at hc
        obtain ⟨h1, h2⟩ := ih t2 rest2 r (fun x hx => hw x (by simp [hx]))
          (fun x hx => hw2 x (by simp [hx])) hb hc hbr
        refine ⟨?_, h2⟩
        rw [lowerStr_cons, lowerStr_cons, h1, hcc]
      · rw [if_neg hcc] at hc
        cases hc

theorem eatReps_nil (w : Str) : ∀ f, eatReps w f [] = none := by
  intro f; cases f <;> rfl

theorem eatReps_not_space {c : Char} (hc : ¬(c = ' ')) (w r : Str) :
    ∀ f, eatReps w f (c :: r) = none := by
  intro f
  cases f with
  | zero => rfl
  | succ g => rw [eatReps, if_neg hc]

theorem eatReps_none_of_ne {w w2 rest2 : Str} (hw : ∀ c ∈ w, isWordChar c = true)
    (hw2 : ∀ c ∈ w2, isWordChar c = true) (hne : w ≠ w2) (hb : boundaryB rest2 = true) :
    ∀ f, eatReps w f (' ' :: (w2 ++ rest2)) = none := by
  intro f
  cases f with
  | zero => rfl
  | succ g =>
    rw [eatReps, if_pos rfl]
    cases hch : chopped w (w2 ++ rest2) with
    | none => rfl
    | some r2 =>
      simp only [Option.some_bind]
      by_cases hbr : boundaryB r2 = true
      · exact absurd (chopped_words w w2 rest2 r2 hw hw2 hb hch hbr).1 hne
      · rw [if_neg hbr]

theorem rule2Aux_nil : ∀ f b, rule2Aux f b [] = [] := by
  intro f b; cases f <;> rfl

theorem rule2Aux_dot : ∀ f b, rule2Aux f b ['.'] = ['.'] := by
  intro f b
  cases f with
  | zero => rfl
  | succ g =>
    rw [rule2Aux, if_neg (by rw [show isWordChar '.' = false from rfl]; simp),
      rule2Aux_nil]

theorem rule2Aux_sep {x : Str} (hx : ∀ f, rule2Aux f false x = x) :
    ∀ f b, rule2Aux f b (' ' :: x) = ' ' :: x := by
  intro f b
  cases f with
  | zero => rfl
  | succ g =>
    rw [rule2Aux, if_neg (by rw [show isWordChar ' ' = false from rfl]; simp),
      show isWordChar ' ' = false from rfl, hx g]

theorem DotStr_decomp (w2 : Str) (t : List Str) :
    ∃ rest2, DotStr (w2 :: t) = w2 ++ rest2 ∧ boundaryB rest2 = true ∧
      (rest2 = ['.'] ∨ ∃ tail2, rest2 = ' ' :: tail2) := by
  cases t with
  | nil => exact ⟨['.'], rfl, rfl, Or.inl rfl⟩
  | cons w3 tt =>
    exact ⟨' ' :: DotStr (w3 :: tt), DotStr_cons _ _ (by simp), rfl,
      Or.inr ⟨DotStr (w3 :: tt), rfl⟩⟩

theorem rule2Aux_id {ws : List Str} (ha : ∀ w ∈ ws, alphaWord w)
    (hd : List.Chain' (fun a b => a ≠ b) ws) :
    ∀ fuel, rule2Aux fuel false (DotStr ws) = DotStr ws := by
  induction ws with
  | nil => exact fun fuel => rule2Aux_dot fuel false
  | cons w ws2 ih =>
    intro fuel
    cases fuel with
    | zero => rfl
    | succ f =>
      obtain ⟨hwne, hwa⟩ := ha w (by simp)
      obtain ⟨c, w1, hw⟩ := List.exists_cons_of_ne_nil hwne
      subst hw
      have hwordw : ∀ x ∈ c :: w1, isWordChar x = true :=
        fun x hx => isWordChar_of_alpha (hwa x hx)
      obtain ⟨rest, hrest, hshape⟩ :
          ∃ rest, DotStr ((c :: w1) :: ws2) = (c :: w1) ++ rest ∧
            ((ws2 = [] ∧ rest = ['.']) ∨
              ∃ w2 t2, ws2 = w2 :: t2 ∧ rest = ' ' :: DotStr (w2 :: t2)) := by
        cases ws2 with
        | nil => exact ⟨['.'], rfl, Or.inl ⟨rfl, rfl⟩⟩
        | cons w2 t2 =>
          exact ⟨' ' :: DotStr (w2 :: t2), DotStr_cons _ _ (by simp),
            Or.inr ⟨w2, t2, rfl, rfl⟩⟩
      have hxw : ∀ x ∈ w1, isWordChar x = true :=
        fun x hx => hwordw x (List.mem_cons_of_mem c hx)
      have hy : ∀ e, rest.head? = some e → isWordChar e = false := by
        intro e he2
        rcases hshape with ⟨_, hr⟩ | ⟨w2, t2, _, hr⟩
        · rw [hr] at he2
          cases he2
          rfl
        · rw [hr] at he2
          cases he2
          rfl
      have htd := takeWhile_word_append hxw hy
      rw [hrest, List.cons_append, rule2Aux,
        if_pos (by rw [hwordw c (by simp)]; rfl)]
      rw [htd.1, htd.2]
      have heat : eatReps (c :: w1) (f + 1) rest = none := by
        rcases hshape with ⟨_, hr⟩ | ⟨w2, t2, hws2, hr⟩
        · rw [hr]
          exact eatReps_not_space (by decide) _ _ (f + 1)
        · obtain ⟨rest2, hr2, hb2, _⟩ := DotStr_decomp w2 t2
          rw [hr, hr2]
          have hw2a := ha w2 (by rw [hws2]; simp)
          refine eatReps_none_of_ne hwordw
            (fun x hx => isWordChar_of_alpha (hw2a.2 x hx)) ?_ hb2 (f + 1)
          have hch := List.chain'_cons.mp (hws2 ▸ hd)
          exact hch.1
      rw [heat, Option.getD_none]
      have hrw : rule2Aux f true rest = rest := by
        rcases hshape with ⟨_, hr⟩ | ⟨w2, t2, hws2, hr⟩
        · rw [hr]
          exact rule2Aux_dot f true
        · rw [hr, ← hws2]
          exact rule2Aux_sep
            (ih (fun u hu => ha u (List.mem_cons_of_mem _ hu))
              (List.Chain'.tail hd)) f true
      rw [hrw]
      exact List.cons_append c w1 rest

theorem eatRepsAnd_dot (w : Str) : ∀ f, eatRepsAnd w f ['.'] = none := by
  intro f; cases f <;> rfl

theorem rule3Aux_nil : ∀ f b, rule3Aux f b [] = [] := by
  intro f b; cases f <;> rfl

theorem rule3Aux_dot : ∀ f b, rule3Aux f b ['.'] = ['.'] := by
  intro f b
  cases f with
  | zero => rfl
  | succ g =>
    rw [rule3Aux, if_neg (by rw [show isWordChar '.' = false from rfl]; simp),
      rule3Aux_nil]

theorem rule3Aux_sep {x : Str} (hx : ∀ f, rule3Aux f false x = x) :
    ∀ f b, rule3Aux f b (' ' :: x) = ' ' :: x := by
  intro f b
  cases f with
  | zero => rfl
  | succ g =>
    rw [rule3Aux, if_neg (by rw [show isWordChar ' ' = false from rfl]; simp),
      show isWordChar ' ' = false from rfl, hx g]

/-- Inversion for `andSplit`: a successful split exposes the leading
space, the three (case-insensitive) `and` letters and the trailing
space. -/
theorem andSplit_some :
    ∀ {s r : Str}, andSplit s = some r →
      ∃ a n d, s = ' ' :: a :: n :: d :: ' ' :: r ∧
        pyToLower a = 'a' ∧ pyToLower n = 'n' ∧ pyToLower d = 'd' := by
  intro s r h
  cases s with
  | nil => cases h
  | cons c0 s1 =>
    cases s1 with
    | nil => cases h
    | cons a s2 =>
      cases s2 with
      | nil => cases h
      | cons n s3 =>
        cases s3 with
        | nil => cases h
        | cons d s4 =>
          cases s4 with
          | nil => cases h
          | cons c4 r2 =>
            rw [andSplit] at h
            split at h
            · rename_i hg
              injection h with h
              subst h
              simp only [Bool.and_eq_true, decide_eq_true_eq] at hg
              obtain ⟨⟨⟨⟨h0, ha2⟩, hn⟩, hd2⟩, h4⟩ := hg
              subst h0
              subst h4
              exact ⟨a, n, d, rfl, ha2, hn, hd2⟩
            · cases h

/-- After any word of a class sentence, no `" and X"` repetition can be
eaten: either the text after the separator does not have the shape
`and ⟨word⟩`, or the word after the `and` differs (even ignoring case)
from every word of the sentence, in particular from the captured one. -/
theorem eatRepsAnd_none_class {w : Str} (hw : ∀ c ∈ w, isWordChar c = true)
    (w2 : Str) (t2 : List Str) (ha : ∀ u ∈ w2 :: t2, alphaWord u)
    (hdist : ∀ u ∈ w2 :: t2, lowerStr w ≠ lowerStr u) :
    ∀ f, eatRepsAnd w f (' ' :: DotStr (w2 :: t2)) = none := by
  intro f
  cases f with
  | zero => rfl
  | succ g =>
    rw [eatRepsAnd]
    cases has : andSplit (' ' :: DotStr (w2 :: t2)) with
    | none => rfl
    | some r =>
      simp only [Option.some_bind]
      obtain ⟨a, n, d, hs, hla, hln, hld⟩ := andSplit_some has
      injection hs with hsp0 hs
      obtain ⟨hw2ne, hw2a⟩ := ha w2 (by simp)
      obtain ⟨c1, u1, he1⟩ := List.exists_cons_of_ne_nil hw2ne
      subst he1
      obtain ⟨rest2, hr2, hsh⟩ :
          ∃ rest2, DotStr ((c1 :: u1) :: t2) = (c1 :: u1) ++ rest2 ∧
            ((t2 = [] ∧ rest2 = ['.']) ∨
              ∃ w3 t3, t2 = w3 :: t3 ∧ rest2 = ' ' :: DotStr (w3 :: t3)) := by
        cases t2 with
        | nil => exact ⟨['.'], rfl, Or.inl ⟨rfl, rfl⟩⟩
        | cons w3 t3 =>
          exact ⟨' ' :: DotStr (w3 :: t3), DotStr_cons _ _ (by simp),
            Or.inr ⟨w3, t3, rfl, rfl⟩⟩
      rw [hr2, List.cons_append] at hs
      injection hs with h1 hs
      cases u1 with
      | nil =>
        rw [List.nil_append] at hs
        rcases hsh with ⟨_, hre⟩ | ⟨w3, t3, ht2, hre⟩
        · rw [hre] at hs
          injection hs with hdot hs2
          cases hs2
        · rw [hre] at hs
          injection hs with hsp hs2
          rw [← hsp] at hln
          exact absurd hln (by decide)
      | cons c2 u2 =>
        rw [List.cons_append] at hs
        injection hs with h2 hs
        cases u2 with
        | nil =>
          rw [List.nil_append] at hs
          rcases hsh with ⟨_, hre⟩ | ⟨w3, t3, ht2, hre⟩
          · rw [hre] at hs
            injection hs with hdot hs2
            cases hs2
          · rw [hre] at hs
            injection hs with hsp hs2
            rw [← hsp] at hld
            exact absurd hld (by decide)
        | cons c3 u3 =>
          rw [List.cons_append] at hs
          injection hs with h3 hs
          cases u3 with
          | nil =>
            rw [List.nil_append] at hs
            rcases hsh with ⟨_, hre⟩ | ⟨w3, t3, ht2, hre⟩
            · rw [hre] at hs
              injection hs with hsp hs2
              exact absurd hsp (by decide)
            · rw [hre] at hs
              injection hs with hsp hs4
              obtain ⟨rest3, hr3, hb3, _⟩ := DotStr_decomp w3 t3
              rw [← hs4, hr3]
              have hw3 := ha w3 (by rw [ht2]; simp)
              cases hcc : choppedCI w (w3 ++ rest3) with
              | none => rfl
              | some r2 =>
                have hq : ¬(boundaryB r2 = true) := by
                  intro hbr
                  exact hdist w3 (by rw [ht2]; simp)
                    (choppedCI_words w w3 rest3 r2 hw
                      (fun x hx => isWordChar_of_alpha (hw3.2 x hx)) hb3 hcc hbr).1
                rw [Option.some_bind, if_neg hq]
          | cons c4 u4 =>
            rw [List.cons_append] at hs
            injection hs with h4 hs
            have hc4 := hw2a c4 (by simp)
            rw [h4] at hc4
            exact absurd hc4 (by decide)

theorem rule3Aux_id {ws : List Str} (ha : ∀ w ∈ ws, alphaWord w)
    (hd : List.Pairwise (fun a b => lowerStr a ≠ lowerStr b) ws) :
    ∀ fuel, rule3Aux fuel false (DotStr ws) = DotStr ws := by
  induction ws with
  | nil => exact fun fuel => rule3Aux_dot fuel false
  | cons w ws2 ih =>
    intro fuel
    cases fuel with
    | zero => rfl
    | succ f =>
      obtain ⟨hwne, hwa⟩ := ha w (by simp)
      obtain ⟨c, w1, hw⟩ := List.exists_cons_of_ne_nil hwne
      subst hw
      have hwordw : ∀ x ∈ c :: w1, isWordChar x = true :=
        fun x hx => isWordChar_of_alpha (hwa x hx)
      obtain ⟨rest, hrest, hshape⟩ :
          ∃ rest, DotStr ((c :: w1) :: ws2) = (c :: w1) ++ rest ∧
            ((ws2 = [] ∧ rest = ['.']) ∨
              ∃ w2 t2, ws2 = w2 :: t2 ∧ rest = ' ' :: DotStr (w2 :: t2)) := by
        cases ws2 with
        | nil => exact ⟨['.'], rfl, Or.inl ⟨rfl, rfl⟩⟩
        | cons w2 t2 =>
          exact ⟨' ' :: DotStr (w2 :: t2), DotStr_cons _ _ (by simp),
            Or.inr ⟨w2, t2, rfl, rfl⟩⟩
      have hxw : ∀ x ∈ w1, isWordChar x = true :=
        fun x hx => hwordw x (List.mem_cons_of_mem c hx)
      have hy : ∀ e, rest.head? = some e → isWordChar e = false := by
        intro e he2
        rcases hshape with ⟨_, hr⟩ | ⟨w2, t2, _, hr⟩
        · rw [hr] at he2
          cases he2
          rfl
        · rw [hr] at he2
          cases he2
          rfl
      have htd := takeWhile_word_append hxw hy
      rw [hrest, List.cons_append, rule3Aux,
        if_pos (by rw [hwordw c (by simp)]; rfl)]
      rw [htd.1, htd.2]
      have heat : eatRepsAnd (c :: w1) (f + 1) rest = none := by
        rcases hshape with ⟨_, hr⟩ | ⟨w2, t2, hws2, hr⟩
        · rw [hr]
          exact eatRepsAnd_dot _ (f + 1)
        · rw [hr]
          have hp := List.pairwise_cons.mp hd
          refine eatRepsAnd_none_class hwordw w2 t2
            (fun u hu => ha u (List.mem_cons_of_mem _ (hws2 ▸ hu))) ?_ (f + 1)
          intro u hu
          exact hp.1 u (by rw [hws2]; exact hu)
      rw [heat, Option.getD_none]
      have hrw : rule3Aux f true rest = rest := by
        rcases hshape with ⟨_, hr⟩ | ⟨w2, t2, hws2, hr⟩
        · rw [hr]
          exact rule3Aux_dot f true
        · rw [hr, ← hws2]
          exact rule3Aux_sep
            (ih (fun u hu => ha u (List.mem_cons_of_mem _ hu))
              (List.pairwise_cons.mp hd).2) f true
      rw [hrw]
      exact List.cons_append c w1 rest

/-! ### The refiner on class sentences -/

theorem pyStrip_DotStr {ws : List Str} (hne : ws ≠ []) (ha : ∀ w ∈ ws, alphaWord w) :
    pyStrip (DotStr ws) = DotStr ws := by
  obtain ⟨w2, t, hws⟩ := List.exists_cons_of_ne_nil hne
  subst hws
  obtain ⟨hw2ne, hw2a⟩ := ha w2 (by simp)
  obtain ⟨c1, u, he⟩ := List.exists_cons_of_ne_nil hw2ne
  subst he
  have hh : pyIsSpace c1 = false := alpha_not_space (hw2a c1 (by simp))
  have hlast : (DotStr ((c1 :: u) :: t)).getLast? = some '.' := by
    unfold DotStr
    exact List.getLast?_concat _
  cases t with
  | nil => exact pyStrip_no_op (DotStr_word_nil c1 u) hh hlast (by decide)
  | cons y t2 => exact pyStrip_no_op (DotStr_word_cons c1 u y t2) hh hlast (by decide)

theorem ensureDot_DotStr (ws : List Str) : ensureDot (DotStr ws) = DotStr ws := by
  have hed : endsWithChar '.' (DotStr ws) = true :=
    endsWithChar_iff.mpr (by unfold DotStr; exact List.getLast?_concat _)
  unfold ensureDot
  apply if_neg
  rw [hed]
  simp

theorem wcount_DotStr {ws : List Str} (hne : ws ≠ []) (ha : ∀ w ∈ ws, alphaWord w) :
    wcount (DotStr ws) = ws.length := by
  have hgl : ∃ w, ws.getLast? = some w := by
    cases h : ws.getLast? with
    | some w => exact ⟨w, rfl⟩
    | none => exact absurd (List.getLast?_eq_none_iff.mp h) hne
  obtain ⟨w, hlast⟩ := hgl
  have hsplit : ws.dropLast ++ [w] = ws := List.dropLast_append_getLast? w hlast
  have hwa := ha w (List.mem_of_mem_getLast? hlast)
  have hjoin : DotStr ws = joinSp (ws.dropLast ++ [w ++ ['.']]) := by
    by_cases h0 : ws.dropLast = []
    · have hws : ws = [w] := by rw [← hsplit, h0]; rfl
      rw [hws]
      rfl
    · rw [joinSp_concat _ _ h0]
      unfold DotStr
      conv_lhs => rw [← hsplit]
      rw [joinSp_concat _ _ h0, List.append_assoc, List.cons_append]
  rw [hjoin]
  have hgood : ∀ u ∈ ws.dropLast ++ [w ++ ['.']], goodWord u := by
    intro u hu
    rw [List.mem_append] at hu
    rcases hu with hu | hu
    · obtain ⟨hune, hua⟩ := ha u ((List.dropLast_sublist ws).subset hu)
      exact ⟨hune, fun c hc => alpha_not_space (hua c hc)⟩
    · rw [List.mem_singleton] at hu
      subst hu
      refine ⟨by simp, ?_⟩
      intro c hc
      rw [List.mem_append] at hc
      rcases hc with hc | hc
      · exact alpha_not_space (hwa.2 c hc)
      · rw [List.mem_singleton] at hc
        subst hc
        decide
  unfold wcount
  rw [words_joinSp _ hgood, List.length_append, List.length_dropLast,
    List.length_singleton]
  have hp : 0 < ws.length := List.length_pos.mpr hne
  omega

theorem refineRules_DotStr {ws : List Str} (ha : ∀ w ∈ ws, alphaWord w)
    (hd : List.Pairwise (fun a b => lowerStr a ≠ lowerStr b) ws) :
    refineRules (DotStr ws) = DotStr ws := by
  have hchain : List.Chain' (fun a b => a ≠ b) ws :=
    (hd.imp (fun hab he => hab (by rw [he]))).chain'
  unfold refineRules pyRule6 pyRule5 pyRule4 pyRule3 pyRule2 pyRule1
  rw [rule1Aux_id (NoDotSpace_DotStr ha), rule2Aux_id ha hchain,
    rule3Aux_id ha hd, rule4Aux_id (NoWsPunct_DotStr ha),
    rule5Aux_id (NoDotSpace_DotStr ha), rule6Aux_id (NoDoubleWs_DotStr ha)]

theorem lowerStr_capFirst (w : Str) : lowerStr (capFirst w) = lowerStr w := by
  cases w with
  | nil => rfl
  | cons c t =>
    show pyToLower (pyToUpper c) :: lowerStr t = pyToLower c :: lowerStr t
    rw [pyToLower_pyToUpper]

theorem SentClass_capFirstWord {ws : List Str} (h : SentClass ws) :
    SentClass (capFirstWord ws) := by
  obtain ⟨hne, ha, hd⟩ := h
  obtain ⟨w, t, hws⟩ := List.exists_cons_of_ne_nil hne
  subst hws
  refine ⟨by simp [capFirstWord], ?_, ?_⟩
  · intro u hu
    rw [show capFirstWord (w :: t) = capFirst w :: t from rfl, List.mem_cons] at hu
    rcases hu with hu | hu
    · subst hu
      obtain ⟨hwne, hwa⟩ := ha w (by simp)
      obtain ⟨c, v, he⟩ := List.exists_cons_of_ne_nil hwne
      subst he
      refine ⟨by simp [capFirst], ?_⟩
      intro x hx
      rw [show capFirst (c :: v) = pyToUpper c :: v from rfl, List.mem_cons] at hx
      rcases hx with hx | hx
      · subst hx
        exact isAsciiAlpha_pyToUpper (hwa c (by simp))
      · exact hwa x (List.mem_cons_of_mem c hx)
    · exact ha u (List.mem_cons_of_mem w hu)
  · rw [show capFirstWord (w :: t) = capFirst w :: t from rfl, List.pairwise_cons]
    have hp := List.pairwise_cons.mp hd
    refine ⟨?_, hp.2⟩
    intro u hu
    rw [lowerStr_capFirst]
    exact hp.1 u hu

theorem capFirstWord_idem {ws : List Str} (h : SentClass ws) :
    capFirstWord (capFirstWord ws) = capFirstWord ws := by
  obtain ⟨hne, ha, _⟩ := h
  obtain ⟨w, t, hws⟩ := List.exists_cons_of_ne_nil hne
  subst hws
  obtain ⟨hwne, _⟩ := ha w (by simp)
  obtain ⟨c, v, he⟩ := List.exists_cons_of_ne_nil hwne
  subst he
  show capFirst (capFirst (c :: v)) :: t = capFirst (c :: v) :: t
  show (pyToUpper (pyToUpper c) :: v) :: t = (pyToUpper c :: v) :: t
  rw [pyToUpper_idem]

/-- The workhorse: on a class sentence of at most 20 words,
`improve_summary` only capitalises the first letter. -/
theorem improve_summary_DotStr {ws : List Str} (h : SentClass ws) (m : Nat)
    (hlen : ws.length ≤ max 20 (min 100 m)) :
    improve_summary (DotStr ws) m = DotStr (capFirstWord ws) := by
  obtain ⟨hne, ha, hd⟩ := h
  obtain ⟨w2, t, hws⟩ := List.exists_cons_of_ne_nil hne
  subst hws
  obtain ⟨hw2ne, hw2a⟩ := ha w2 (by simp)
  obtain ⟨c1, u, he⟩ := List.exists_cons_of_ne_nil hw2ne
  subst he
  have ha2 : ∀ w ∈ (pyToUpper c1 :: u) :: t, alphaWord w := by
    intro w hw
    rw [List.mem_cons] at hw
    rcases hw with hw | hw
    · subst hw
      refine ⟨by simp, ?_⟩
      intro x hx
      rw [List.mem_cons] at hx
      rcases hx with hx | hx
      · subst hx
        exact isAsciiAlpha_pyToUpper ((ha (c1 :: u) (by simp)).2 c1 (by simp))
      · exact (ha (c1 :: u) (by simp)).2 x (List.mem_cons_of_mem c1 hx)
    · exact ha w (List.mem_cons_of_mem _ hw)
  unfold improve_summary
  rw [refineRules_DotStr ha hd, pyStrip_DotStr (by simp) ha, capFirst_DotStr,
    ensureDot_DotStr,
    truncate_unchanged _ _ (by
      rw [wcount_DotStr (by simp) ha2]
      simp only [List.length_cons] at hlen ⊢
      exact hlen),
    pyStrip_DotStr (by simp) ha2]
  rfl

/-! ### Claim C6: refiner idempotence -/

/-- Claim C6, counterexample to the property as stated.  The string
`"Go.  The end."` is non-empty, ends in a single terminal period and
contains no repeated words, yet `improve_summary` (at its default
`max_words = 30`) is not idempotent on it: the first pass collapses the
double space (rule 6), which creates the `". The"` pattern that rule 5
rewrites to `"; The"` on the second pass. -/
theorem improve_summary_not_idem :
    improve_summary (improve_summary "Go.  The end.".data 30) 30 ≠
      improve_summary "Go.  The end.".data 30 := by decide

/-- Claim C6, corrected.  Refiner idempotence holds on the fixed-point
class the code actually supports: a non-empty sentence of ASCII-letter
words separated by single spaces, ending in a single period attached to
the last word, with no word repeated even ignoring case, and at most 30
words (the default budget `max(20, min(100, 30))`).  On such a sentence
a second `improve_summary` pass (default `max_words = 30`) returns the
first pass's output unchanged. -/
theorem improve_summary_idem {ws : List Str} (h : SentClass ws)
    (hlen : ws.length ≤ 30) :
    improve_summary (improve_summary (DotStr ws) 30) 30
      = improve_summary (DotStr ws) 30 := by
  have h2 := SentClass_capFirstWord h
  have hlen2 : (capFirstWord ws).length = ws.length := by
    cases ws <;> rfl
  have hb : ws.length ≤ max 20 (min 100 30) := by
    have hm : max 20 (min 100 30) = 30 := by decide
    rw [hm]
    exact hlen
  rw [improve_summary_DotStr h 30 hb,
    improve_summary_DotStr h2 30 (by rw [hlen2]; exact hb)]
  exact congrArg DotStr (capFirstWord_idem h)

/-- Witness instantiating the corrected idempotence theorem on the
two-word class sentence `"hi you."`. -/
theorem improve_summary_idem_witness :
    SentClass [['h', 'i'], ['y', 'o', 'u']] ∧
      improve_summary (improve_summary (DotStr [['h', 'i'], ['y', 'o', 'u']]) 30) 30
        = improve_summary (DotStr [['h', 'i'], ['y', 'o', 'u']]) 30 :=
  ⟨by decide, improve_summary_idem (by decide) (by decide)⟩

/-! ### Claim C1: the bounded degenerate-output retry -/

/-- C1 (counterexample): a first summary of 10 words (not fewer than
`min_len // 2 = 10`) ending in `'!'` is not degenerate under the claim's
`'.', '!', '?'` condition, yet `summarize_text` performs a second provider
call: the code tests `endswith('.')` only. -/
theorem summarize_retry_on_exclamation :
    (summarize_text (fun _ _ _ => "One two three four five six seven eight nine ten!".data)
        "hi".data).2.length = 2 ∧
    wcount "hi".data ≤ 500 ∧
    minLenOf "hi".data / 2 ≤ wcount "One two three four five six seven eight nine ten!".data ∧
    endsTerm (pyStrip "One two three four five six seven eight nine ten!".data) = true := by
  refine ⟨by decide, by decide, by decide, by decide⟩

/-- C1 (amended): on the short-input path (`word count <= 500`) the
provider is invoked a second time — with `max_len + 30`, `min_len`
unchanged — if and only if the first result's word count is below
`min_len // 2` or the first result, stripped, does not end in the single
character `'.'` (the code does not accept `'!'` or `'?'` here); and on
every path the final summary involves at most two provider invocations
(one bounded retry, never a loop). -/
theorem summarize_text_retry_spec (p : Str → Nat → Nat → Str) (text : Str) :
    (wcount text ≤ 500 →
      (summarize_text p text).2 =
        (if degenerate (minLenOf text) (p text (maxLenOf text) (minLenOf text)) then
          [(text, maxLenOf text, minLenOf text), (text, maxLenOf text + 30, minLenOf text)]
        else [(text, maxLenOf text, minLenOf text)])) ∧
    (500 < wcount text →
      (summarize_text p text).2 =
        (chunk_text text 600).map (fun c => (c, firstPassMax text, firstPassMin text)) ++
          (runFinal p (combinedSummary p text) (minLenOf text) (maxLenOf text)).2) ∧
    (∀ input mn mx, (runFinal p input mn mx).2.length ≤ 2) := by
  refine ⟨?_, ?_, ?_⟩
  · intro h
    rw [summarize_text, if_pos h, runFinal]
    by_cases hd : degenerate (minLenOf text) (p text (maxLenOf text) (minLenOf text)) = true
    · rw [if_pos hd, if_pos hd]
    · rw [if_neg hd, if_neg hd]
  · intro h
    rw [summarize_text, if_neg (by omega)]
  · intro input mn mx
    rw [runFinal]
    by_cases hd : degenerate mn (p input mx mn) = true
    · rw [if_pos hd]
      simp
    · rw [if_neg hd]
      simp

/-- C1 (witness): a provider that always answers with the 2-word summary
`"Ok good."` is degenerate for `"hi"` (`min_len = 20`), so exactly the two
logged calls `(maxLen, minLen)` then `(maxLen + 30, minLen)` happen. -/
theorem summarize_text_retry_spec_witness :
    (summarize_text (fun _ _ _ => "Ok good.".data) "hi".data).2 =
      [("hi".data, 30, 20), ("hi".data, 60, 20)] := by
  have h := (summarize_text_retry_spec (fun _ _ _ => "Ok good.".data) "hi".data).1 (by decide)
  rw [h]
  decide

end Bread
